import Mathlib

/-!
Verification of the V_Sim ascii structure-file codec
(`ase/io/v_sim.py`: `read_v_sim` and `write_v_sim`).

The reader and writer are embedded shallowly over `ℚ`:

* an input stream is a list of lines (strings without the trailing
  newline; end of the list is end-of-stream);
* Python's builtin `float` parsing and float formatting are platform
  builtins, not repository code, so they are passed in as parameters
  (`pf : String → Option ℚ` for parsing, `fmt : ℚ → String` for
  formatting); concrete instances `pfQ`/`fmtQ` are provided for
  evaluating the development on closed inputs;
* `ase.geometry.cellpar_to_cell` / `cell_to_cellpar`, `ase.units.Bohr`
  and `Atoms.get_scaled_positions` are repository code that is not part
  of the sources under verification; they are modelled from the spec
  (see the doc comments on `Bohr`, `fracPositions`, and the `cpc` /
  `canon` parameters of `decodeLines` / `encodeLines`);
* Python's `re` matches are translated to their effect on this input
  class: `^\s*[#!]` succeeds exactly when the first non-whitespace
  character of the line is `#` or `!`, and
  `^\s*\S+\s+\S+\s+\S+\s+\S+` succeeds exactly when the line contains
  at least four whitespace-separated tokens;
* Python whitespace (`str.split()` with no argument, `\s`) is modelled
  by space, tab, carriage return and newline, and `str.lower()` by
  ASCII lowercasing, which covers every character the format uses.
-/

namespace VSim

/-! ## Character and string utilities -/

/-- Whitespace as used by Python's `str.split()` and `\s` (ASCII part). -/
def wsChar (c : Char) : Bool := c = ' ' || c = '\t' || c = '\n' || c = '\r'

/-- ASCII lowercasing, modelling `str.lower()` on the characters in play. -/
def lcChar (c : Char) : Char :=
  if 65 ≤ c.toNat ∧ c.toNat ≤ 90 then Char.ofNat (c.toNat + 32) else c

/-- One character of `line.replace(',', ' ').lower()`: the comma becomes a
space, everything else is lowercased.  (`str.replace` of a single character
followed by `str.lower()` acts characterwise.) -/
def normChar (c : Char) : Char := if c = ',' then ' ' else lcChar c

/-- Accumulator-based whitespace tokenizer: `splitWSAux cs acc` walks `cs`
with `acc` holding the reversed current token. -/
def splitWSAux : List Char → List Char → List (List Char)
  | [], acc => if acc = [] then [] else [acc.reverse]
  | c :: cs, acc =>
    if wsChar c then
      if acc = [] then splitWSAux cs [] else acc.reverse :: splitWSAux cs []
    else
      splitWSAux cs (c :: acc)

/-- Python's `str.split()` with no argument: maximal runs of
non-whitespace characters. -/
def splitWS (s : String) : List String := (splitWSAux s.data []).map String.mk

/-- The match `re.compile(r'^\s*[#!]').match(line)`: returns the characters
after the matched part (`line[p.end():]`) when the line's first
non-whitespace character is `#` or `!`, `none` otherwise. -/
def stripComment (cs : List Char) : Option (List Char) :=
  match cs.dropWhile (fun c => wsChar c) with
  | [] => none
  | c :: rest => if c = '#' || c = '!' then some rest else none

/-- Keyword tokens contributed by a comment line whose body after the
marker is `rest`: the source normalizes with
`.replace(',', ' ').lower()`, tests `line[:8] == "keyword:"` (note: no
stripping of whitespace after the marker), and extends the keyword list
with `line[8:].split()`. -/
def commentKeywords (rest : List Char) : List String :=
  let s := rest.map normChar
  if s.take 8 = "keyword:".data then (splitWSAux (s.drop 8) []).map String.mk
  else []

/-- Keyword tokens a body line adds to the keyword list (empty for
non-comment lines). -/
def addedKeywords (line : String) : List String :=
  match stripComment line.data with
  | some rest => commentKeywords rest
  | none => []

/-! ## Rational 3-vectors and 3x3 matrices -/

structure Vec3 where
  x : ℚ
  y : ℚ
  z : ℚ
deriving DecidableEq

structure Mat3 where
  r0 : Vec3
  r1 : Vec3
  r2 : Vec3
deriving DecidableEq

def vsmul (a : ℚ) (v : Vec3) : Vec3 := ⟨a * v.x, a * v.y, a * v.z⟩

def msmul (a : ℚ) (m : Mat3) : Mat3 := ⟨vsmul a m.r0, vsmul a m.r1, vsmul a m.r2⟩

/-- Row vector times matrix whose rows are the lattice vectors: the ASE
convention `positions = scaled @ cell`. -/
def vecMul (v : Vec3) (m : Mat3) : Vec3 :=
  ⟨v.x * m.r0.x + v.y * m.r1.x + v.z * m.r2.x,
   v.x * m.r0.y + v.y * m.r1.y + v.z * m.r2.y,
   v.x * m.r0.z + v.y * m.r1.z + v.z * m.r2.z⟩

def det3 (m : Mat3) : ℚ :=
  m.r0.x * (m.r1.y * m.r2.z - m.r1.z * m.r2.y)
    - m.r0.y * (m.r1.x * m.r2.z - m.r1.z * m.r2.x)
    + m.r0.z * (m.r1.x * m.r2.y - m.r1.y * m.r2.x)

/-- Explicit inverse of a 3x3 matrix (adjugate over determinant; total on
`ℚ`, arbitrary when the determinant is zero). -/
def inv3 (m : Mat3) : Mat3 :=
  let d := det3 m
  ⟨⟨(m.r1.y * m.r2.z - m.r1.z * m.r2.y) / d,
    (m.r0.z * m.r2.y - m.r0.y * m.r2.z) / d,
    (m.r0.y * m.r1.z - m.r0.z * m.r1.y) / d⟩,
   ⟨(m.r1.z * m.r2.x - m.r1.x * m.r2.z) / d,
    (m.r0.x * m.r2.z - m.r0.z * m.r2.x) / d,
    (m.r0.z * m.r1.x - m.r0.x * m.r1.z) / d⟩,
   ⟨(m.r1.x * m.r2.y - m.r1.y * m.r2.x) / d,
    (m.r0.y * m.r2.x - m.r0.x * m.r2.y) / d,
    (m.r0.x * m.r1.y - m.r0.y * m.r1.x) / d⟩⟩

def mId : Mat3 := ⟨⟨1, 0, 0⟩, ⟨0, 1, 0⟩, ⟨0, 0, 1⟩⟩

/-! ## Data model -/

/-- Error taxonomy of the codec (spec section 7): `MalformedInput` is the
`ValueError` of a failed `float` conversion or a failed header
assignment, `UnsupportedFeature` is the reader's `NotImplementedError`,
`UnsupportedBoundaryCondition` is the writer's `Exception` for an
unsupported periodicity pattern. -/
inductive VErr where
  | MalformedInput
  | UnsupportedFeature
  | UnsupportedBoundaryCondition
deriving DecidableEq

/-- The decoded/encoded unit: cell matrix (rows are lattice vectors),
ordered atom list of (absolute position, species label), and the
periodic-boundary flags. -/
structure Record where
  cell : Mat3
  atoms : List (Vec3 × String)
  pbc : Bool × Bool × Bool
deriving DecidableEq

/-- State of the reader's body-scanning loop: keyword tokens collected so
far and atoms (position, species) collected so far. -/
structure ScanState where
  keywords : List String
  atoms : List (Vec3 × String)
deriving DecidableEq

/-- Modelled from the spec: `ase.units.Bohr`, the Bohr radius in
angstrom, supplied by the physical-constants collaborator (`ase/units.py`
is not among the sources under verification).  The spec treats it as a
fixed positive constant; the value below is the one the source
distribution uses.  No theorem depends on the exact value. -/
def Bohr : ℚ := 5291772105638411 / 10000000000000000

/-- Test for any Bohr-family keyword, mirroring
`("bohr" in keywords) or ("bohrd0" in keywords) or ("atomic" in keywords)
or ("atomicd0" in keywords)`. -/
def bohrFamily (kws : List String) : Bool :=
  kws.contains "bohr" || kws.contains "bohrd0" ||
    kws.contains "atomic" || kws.contains "atomicd0"

/-- The `unit` factor computed at a node line: `1.0`, unless `reduced` is
absent and a Bohr-family keyword is present, in which case `units.Bohr`. -/
def lineUnit (kws : List String) : ℚ :=
  if kws.contains "reduced" then 1
  else if bohrFamily kws then Bohr else 1

/-! ## Reader (`read_v_sim`) -/

/-- One iteration of the reader's body loop on a single line, for the
parse function `pf` (the model of Python's builtin `float`): a comment
line may extend the keyword list; otherwise a line with at least four
whitespace-separated tokens is a node line whose first three tokens must
parse as reals (else `MalformedInput`) and are scaled by the current
`unit`; any other line is ignored. -/
def processBodyLine (pf : String → Option ℚ) (st : ScanState) (line : String) :
    Except VErr ScanState :=
  match stripComment line.data with
  | some rest => .ok ⟨st.keywords ++ commentKeywords rest, st.atoms⟩
  | none =>
    let fields := splitWS line
    if 4 ≤ fields.length then
      match pf (fields.getD 0 ""), pf (fields.getD 1 ""), pf (fields.getD 2 "") with
      | some c0, some c1, some c2 =>
        .ok ⟨st.keywords, st.atoms ++
          [(⟨lineUnit st.keywords * c0, lineUnit st.keywords * c1,
             lineUnit st.keywords * c2⟩, fields.getD 3 "")]⟩
      | _, _, _ => .error .MalformedInput
    else .ok st

/-- The reader's body loop (`while True: line = fd.readline() ...`). -/
def scanBody (pf : String → Option ℚ) : ScanState → List String → Except VErr ScanState
  | st, [] => .ok st
  | st, l :: ls =>
    match processBodyLine pf st l with
    | .ok st' => scanBody pf st' ls
    | .error e => .error e

/-- The header conversion `for i in range(len(box)): box[i] = float(box[i])`:
every token must parse, not only the first six. -/
def parseAll (pf : String → Option ℚ) : List String → Except VErr (List ℚ)
  | [] => .ok []
  | t :: ts =>
    match pf t with
    | some q =>
      match parseAll pf ts with
      | .ok qs => .ok (q :: qs)
      | .error e => .error e
    | none => .error .MalformedInput

/-- The assignment `cell.flat[[0, 3, 4, 6, 7, 8]] = box[:6]` on
`cell = np.zeros((3, 3))`: with at least six numbers the first six fill
the lower-triangular positions (0,0), (1,0), (1,1), (2,0), (2,1), (2,2)
row-major; numpy broadcasts a single number to all six positions; any
other length raises (`MalformedInput`). -/
def lowerFill : List ℚ → Except VErr Mat3
  | b0 :: b1 :: b2 :: b3 :: b4 :: b5 :: _ =>
    .ok ⟨⟨b0, 0, 0⟩, ⟨b1, b2, 0⟩, ⟨b3, b4, b5⟩⟩
  | [b] => .ok ⟨⟨b, 0, 0⟩, ⟨b, b, 0⟩, ⟨b, b, b⟩⟩
  | _ => .error .MalformedInput

/-- Cell resolution after the scan: the `angdeg` branch calls the
cell-parameter collaborator `cpc`; otherwise the lower-triangular fill is
scaled by `units.Bohr` exactly when a Bohr-family keyword is present. -/
def cellFromKeywords (cpc : List ℚ → Mat3) (kws : List String) (box : List ℚ) :
    Except VErr Mat3 :=
  if kws.contains "angdeg" then .ok (cpc box)
  else
    match lowerFill box with
    | .ok m => .ok (msmul (if bohrFamily kws then Bohr else 1) m)
    | .error e => .error e

/-- Final assembly of `read_v_sim` after the body scan: the
`NotImplementedError` check (note the source tests the mixed-case string
`"freeBC"` against keywords that were lowercased when collected), the
cell resolution, and the `reduced` branch (scaled positions are resolved
against the cell via `positions = scaled @ cell`). -/
def decodeBody (pf : String → Option ℚ) (cpc : List ℚ → Mat3)
    (box : List ℚ) (body : List String) : Except VErr Record :=
  match scanBody pf ⟨[], []⟩ body with
  | .error e => .error e
  | .ok st =>
    if st.keywords.contains "surface" || st.keywords.contains "freeBC" then
      .error .UnsupportedFeature
    else
      match cellFromKeywords cpc st.keywords box with
      | .error e => .error e
      | .ok cell =>
        .ok ⟨cell,
          (if st.keywords.contains "reduced" then
            st.atoms.map (fun a => (vecMul a.1 cell, a.2))
          else st.atoms),
          (false, false, false)⟩

/-- The reader `read_v_sim`, parameterized by the float-parsing builtin
`pf` and the `cellpar_to_cell` collaborator `cpc` (modelled from the
spec: `ase.geometry.cellpar_to_cell` is not among the sources under
verification and the spec treats it as a pure-function collaborator with
the standard crystallographic convention, whose trigonometry is not
rationally definable; it is therefore kept abstract).  The first line is
the discarded title; the next two lines are concatenated with a space
and tokenized into the box numbers; the remaining lines are the body. -/
def decodeLines (pf : String → Option ℚ) (cpc : List ℚ → Mat3)
    (lines : List String) : Except VErr Record :=
  match parseAll pf (splitWS (lines.getD 1 "" ++ " " ++ lines.getD 2 "")) with
  | .ok box => decodeBody pf cpc box (lines.drop 3)
  | .error e => .error e

/-! ## Writer (`write_v_sim`) -/

/-- The fixed title line the writer emits. -/
def titleLine : String :=
  "===== v_sim input file created using the Atomic Simulation Environment (ASE) ===="

/-- Modelled from the spec: `Atoms.get_scaled_positions`, the
scaled/absolute position conversion collaborator (not among the sources
under verification; the spec describes the written numbers as the
positions expressed as fractions of the canonical cell, treated as a
pure function). -/
def fracPositions (cell : Mat3) (atoms : List (Vec3 × String)) : List (Vec3 × String) :=
  atoms.map (fun a => (vecMul a.1 (inv3 cell), a.2))

/-- One atom line: `'{0} {1} {2} {3}'.format(f0, f1, f2, symbol)`. -/
def atomLine (fmt : ℚ → String) (a : Vec3 × String) : String :=
  fmt a.1.x ++ " " ++ fmt a.1.y ++ " " ++ fmt a.1.z ++ " " ++ a.2

/-- The lines the writer emits before the periodicity keyword: the title,
the two header lines carrying the six entries of the triangularized cell
`c`, and the unconditional `reduced` and `angstroem` keyword lines. -/
def encPre (fmt : ℚ → String) (c : Mat3) : List String :=
  [titleLine,
   fmt c.r0.x ++ " " ++ fmt c.r1.x ++ " " ++ fmt c.r1.y,
   fmt c.r2.x ++ " " ++ fmt c.r2.y ++ " " ++ fmt c.r2.z,
   "#keyword: reduced",
   "#keyword: angstroem"]

/-- The writer `write_v_sim`, parameterized by the float-formatting
builtin `fmt` and by `canon`, the composition
`cellpar_to_cell(cell_to_cellpar(cell))` (modelled from the spec: the
cell-parameter conversion pair is repository code not among the sources
under verification; the spec describes the composite as reorienting the
cell into canonical lower-triangular form with lengths and angles
preserved, and it is kept abstract for the same reason as `cpc`).
The result is the list of lines actually written, paired with the error,
if any, that aborted the writer: on an unsupported periodicity pattern
the exception is raised after the header and the two unconditional
keyword lines but before any periodicity or atom line. -/
def encodeLines (fmt : ℚ → String) (canon : Mat3 → Mat3) (r : Record) :
    List String × Option VErr :=
  let c := canon r.cell
  match r.pbc with
  | (true, true, true) =>
    (encPre fmt c ++ ["#keyword: periodic"]
      ++ (fracPositions c r.atoms).map (atomLine fmt), none)
  | (false, false, false) =>
    (encPre fmt c ++ ["#keyword: freeBC"]
      ++ (fracPositions c r.atoms).map (atomLine fmt), none)
  | (true, false, true) =>
    (encPre fmt c ++ ["#keyword: surface"]
      ++ (fracPositions c r.atoms).map (atomLine fmt), none)
  | _ => (encPre fmt c, some .UnsupportedBoundaryCondition)

/-! ## Concrete instances for evaluating the model

The abstract parameters are instantiated on closed inputs with `pfQ`
(a parser covering the decimal literals Python's `float` accepts, plus
an exact `p/q` fraction form so that formatting is injective on all of
`ℚ`), `fmtQ` (its matching formatter), `cpc0` (an arbitrary concrete
instance of the abstract `cellpar_to_cell` collaborator; no closed input
below ever reaches the `angdeg` branch), and the identity as `canon`
(closed encode inputs use cells that are already canonical). -/

def digitVal (c : Char) : Option ℕ :=
  if 48 ≤ c.toNat ∧ c.toNat ≤ 57 then some (c.toNat - 48) else none

def digitsVal : List Char → ℕ → Option ℕ
  | [], acc => some acc
  | c :: cs, acc =>
    match digitVal c with
    | some d => digitsVal cs (10 * acc + d)
    | none => none

/-- Tail of the concrete number parser, after the sign and the leading
digit run `ip` have been consumed: nothing further (an integer), a
fractional part after `.`, or a denominator after `/`. -/
def pfQParseTail (sg : ℚ) (ip : List Char) : List Char → Option ℚ
  | [] =>
    if ip = [] then none
    else match digitsVal ip 0 with
      | some n => some (sg * n)
      | none => none
  | '.' :: fp =>
    if ip = [] ∧ fp = [] then none
    else if fp.all (fun c => (digitVal c).isSome) then
      match digitsVal ip 0, digitsVal fp 0 with
      | some n, some f => some (sg * ((n : ℚ) + (f : ℚ) / (10 : ℚ) ^ fp.length))
      | _, _ => none
    else none
  | '/' :: dp =>
    if ip = [] ∨ dp = [] then none
    else match digitsVal ip 0, digitsVal dp 0 with
      | some n, some d => if d = 0 then none else some (sg * (n : ℚ) / (d : ℚ))
      | _, _ => none
  | _ => none

/-- Concrete number parser: optional sign, then either a decimal literal
(integer part and/or fractional part) or a fraction `p/q`. -/
def pfQ (s : String) : Option ℚ :=
  let cs := s.data
  let sg : ℚ := if cs.head? = some '-' then -1 else 1
  let cs' : List Char :=
    if cs.head? = some '-' ∨ cs.head? = some '+' then cs.tail else cs
  let ip := cs'.takeWhile (fun c => (digitVal c).isSome)
  pfQParseTail sg ip (cs'.drop ip.length)

def natDigitsAux : ℕ → ℕ → List Char
  | 0, _ => []
  | fuel + 1, n => if n = 0 then [] else natDigitsAux fuel (n / 10) ++ [Char.ofNat (48 + n % 10)]

def natDigits (n : ℕ) : List Char := if n = 0 then ['0'] else natDigitsAux (n + 1) n

/-- Concrete number formatter matching `pfQ`: integers in decimal, other
rationals as `p/q`. -/
def fmtQ (q : ℚ) : String :=
  let sgn : List Char := if q.num < 0 then ['-'] else []
  if q.den = 1 then String.mk (sgn ++ natDigits q.num.natAbs)
  else String.mk (sgn ++ (natDigits q.num.natAbs ++ '/' :: natDigits q.den))

/-- A fixed concrete stand-in for the abstract `cellpar_to_cell`
collaborator, used only to close theorems whose inputs never reach the
`angdeg` branch. -/
def cpc0 : List ℚ → Mat3 := fun _ => mId

/-! ## Observers and spec views used to state the claims -/

instance instDecEqExcept {ε : Type u_1} {α : Type u_2} [DecidableEq ε] [DecidableEq α] :
    DecidableEq (Except ε α) := fun x y =>
  match x, y with
  | .ok a, .ok b =>
    if h : a = b then .isTrue (by rw [h]) else .isFalse (fun hc => by cases hc; exact h rfl)
  | .ok _, .error _ => .isFalse (fun hc => by cases hc)
  | .error _, .ok _ => .isFalse (fun hc => by cases hc)
  | .error e, .error f =>
    if h : e = f then .isTrue (by rw [h]) else .isFalse (fun hc => by cases hc; exact h rfl)

/-- All keyword tokens collected over a body, in order. -/
def bodyKeywords (body : List String) : List String := body.flatMap addedKeywords

/-- Spec view used to state unit uniformity: one body-loop iteration with
the unit factor forced to `1`, i.e. recording the coordinates exactly as
written in the file. -/
def rawProcessBodyLine (pf : String → Option ℚ) (st : ScanState) (line : String) :
    Except VErr ScanState :=
  match stripComment line.data with
  | some rest => .ok ⟨st.keywords ++ commentKeywords rest, st.atoms⟩
  | none =>
    let fields := splitWS line
    if 4 ≤ fields.length then
      match pf (fields.getD 0 ""), pf (fields.getD 1 ""), pf (fields.getD 2 "") with
      | some c0, some c1, some c2 =>
        .ok ⟨st.keywords, st.atoms ++ [(⟨c0, c1, c2⟩, fields.getD 3 "")]⟩
      | _, _, _ => .error .MalformedInput
    else .ok st

/-- Spec view: the body scan with coordinates recorded as written (no
unit scaling). -/
def rawScanBody (pf : String → Option ℚ) : ScanState → List String → Except VErr ScanState
  | st, [] => .ok st
  | st, l :: ls =>
    match rawProcessBodyLine pf st l with
    | .ok st' => rawScanBody pf st' ls
    | .error e => .error e

/-- Well-formedness of a written number token, as needed for the encoded
file to tokenize back into the same tokens: nonempty, no whitespace, and
not starting with a comment marker (Python's float formatting satisfies
all three). -/
def numTok (s : String) : Prop :=
  s.data ≠ [] ∧ (∀ c ∈ s.data, wsChar c = false) ∧
    s.data.head? ≠ some '#' ∧ s.data.head? ≠ some '!'

/-- Well-formedness of a species label: nonempty without whitespace. -/
def symTok (s : String) : Prop :=
  s.data ≠ [] ∧ ∀ c ∈ s.data, wsChar c = false

/-- Every rational number the writer formats for a record: the six
triangular cell entries followed by the three fractional coordinates of
each atom. -/
def encodedRats (canon : Mat3 → Mat3) (r : Record) : List ℚ :=
  [(canon r.cell).r0.x, (canon r.cell).r1.x, (canon r.cell).r1.y,
   (canon r.cell).r2.x, (canon r.cell).r2.y, (canon r.cell).r2.z] ++
    (fracPositions (canon r.cell) r.atoms).flatMap (fun a => [a.1.x, a.1.y, a.1.z])

/-! ## Concrete closed inputs -/

def fileKwAfter : List String :=
  ["sample", "1 0 1", "0 0 1", "1 0 0 C", "#keyword: bohr"]

def fileKwBefore : List String :=
  ["sample", "1 0 1", "0 0 1", "#keyword: bohr", "1 0 0 C"]

def fileSurfaceBad : List String :=
  ["sample", "1 0 1", "0 0 1", "#keyword: surface", "a b c D"]

def fileFreeBC : List String :=
  ["sample", "1 0 1", "0 0 1", "#keyword: freeBC", "1 0 0 C"]

def fileSurfaceOk : List String :=
  ["sample", "1 0 1", "0 0 1", "#keyword: surface", "1 0 0 C"]

def fileBadHeader : List String := ["sample", "1 x 1", "0 0 1"]

def fileSplit15 : List String := ["sample", "1", "0 1 0 0 1", "1 0 0 C"]

def fileSplit33 : List String := ["sample", "1 0 1", "0 0 1", "1 0 0 C"]

def fileIndentKw : List String :=
  ["sample", "2 0 2", "0 0 2", "#  keyword: reduced", "1/2 0 0 X"]

/-- A record with the unsupported-on-read [true, false, true] periodicity. -/
def recSurface : Record := ⟨mId, [(⟨0, 0, 0⟩, "X")], (true, false, true)⟩

/-- A fully periodic record whose cell is already canonical
(lower-triangular, nonzero determinant). -/
def recRound : Record :=
  ⟨⟨⟨2, 0, 0⟩, ⟨1, 3, 0⟩, ⟨0, 1, 4⟩⟩,
   [(⟨1, 2, 3⟩, "Si"), (⟨-1, 0, 1/2⟩, "O")], (true, true, true)⟩

/-- A record with a periodicity pattern the writer rejects. -/
def recBadPbc : Record := ⟨mId, [(⟨0, 0, 0⟩, "X")], (true, true, false)⟩

/-! ## Tokenizer lemmas -/

theorem splitWSAux_append_space (a b : List Char) :
    ∀ acc, splitWSAux (a ++ ' ' :: b) acc = splitWSAux a acc ++ splitWSAux b [] := by
  induction a with
  | nil =>
    intro acc
    by_cases h : acc = [] <;> simp [splitWSAux, wsChar, h]
  | cons c cs ih =>
    intro acc
    by_cases hw : wsChar c = true
    · by_cases h : acc = [] <;> simp [splitWSAux, hw, h, ih]
    · simp only [List.cons_append, splitWSAux, hw]
      rw [if_neg (by simp [hw])]
      rw [if_neg (by simp [hw])]
      exact ih _

theorem splitWSAux_nonws (t : List Char) :
    ∀ acc, (∀ c ∈ t, wsChar c = false) → splitWSAux t acc = splitWSAux [] (t.reverse ++ acc) := by
  induction t with
  | nil => intro acc _; simp
  | cons c cs ih =>
    intro acc h
    have hc : wsChar c = false := h c (by simp)
    simp only [splitWSAux]
    rw [if_neg (by simp [hc])]
    rw [ih (c :: acc) (fun d hd => h d (by simp [hd]))]
    simp [splitWSAux]

theorem splitWS_single (s : String) (h0 : s.data ≠ [])
    (h : ∀ c ∈ s.data, wsChar c = false) : splitWS s = [s] := by
  unfold splitWS
  rw [splitWSAux_nonws _ [] h]
  have hne : s.data.reverse ++ [] ≠ [] := by simp [h0]
  simp only [splitWSAux, if_neg hne]
  simp

theorem splitWS_append_space (s t : String) :
    splitWS (s ++ " " ++ t) = splitWS s ++ splitWS t := by
  unfold splitWS
  have hd : (s ++ " " ++ t).data = s.data ++ ' ' :: t.data := by
    rw [String.data_append, String.data_append]
    simp
  rw [hd, splitWSAux_append_space, List.map_append]

theorem splitWSAux_chars (cs : List Char) :
    ∀ acc t, t ∈ splitWSAux cs acc → ∀ c ∈ t, c ∈ cs ∨ c ∈ acc := by
  induction cs with
  | nil =>
    intro acc t ht c hc
    by_cases h : acc = [] <;> simp [splitWSAux, h] at ht
    subst ht
    exact Or.inr (List.mem_reverse.mp hc)
  | cons d ds ih =>
    intro acc t ht c hc
    by_cases hw : wsChar d = true
    · by_cases h : acc = []
      · simp only [splitWSAux, if_pos hw, if_pos h] at ht
        rcases ih [] t ht c hc with h1 | h1
        · exact Or.inl (by simp [h1])
        · simp at h1
      · simp only [splitWSAux, if_pos hw, if_neg h, List.mem_cons] at ht
        rcases ht with ht | ht
        · subst ht; exact Or.inr (List.mem_reverse.mp hc)
        · rcases ih [] t ht c hc with h1 | h1
          · exact Or.inl (by simp [h1])
          · simp at h1
    · simp only [splitWSAux, if_neg (by simp [hw] : ¬ wsChar d = true)] at ht
      rcases ih (d :: acc) t ht c hc with h1 | h1
      · exact Or.inl (by simp [h1])
      · rcases List.mem_cons.mp h1 with h2 | h2
        · exact Or.inl (by simp [h2])
        · exact Or.inr h2

theorem splitWSAux_nows (cs : List Char) :
    ∀ acc, (∀ c ∈ acc, wsChar c = false) →
      ∀ t ∈ splitWSAux cs acc, ∀ c ∈ t, wsChar c = false := by
  induction cs with
  | nil =>
    intro acc hacc t ht c hc
    by_cases h : acc = [] <;> simp [splitWSAux, h] at ht
    subst ht
    exact hacc c (List.mem_reverse.mp hc)
  | cons d ds ih =>
    intro acc hacc t ht c hc
    by_cases hw : wsChar d = true
    · by_cases h : acc = []
      · simp only [splitWSAux, if_pos hw, if_pos h] at ht
        exact ih [] (by simp) t ht c hc
      · simp only [splitWSAux, if_pos hw, if_neg h, List.mem_cons] at ht
        rcases ht with ht | ht
        · subst ht; exact hacc c (List.mem_reverse.mp hc)
        · exact ih [] (by simp) t ht c hc
    · simp only [splitWSAux, if_neg (by simp [hw] : ¬ wsChar d = true)] at ht
      refine ih (d :: acc) ?_ t ht c hc
      intro e he
      rcases List.mem_cons.mp he with h2 | h2
      · subst h2; simp at hw; exact hw
      · exact hacc e h2

/-! ## Character lemmas -/

theorem isValidChar_small (n : ℕ) (h : n < 55296) : n.isValidChar := Or.inl h

theorem char_toNat_ofNat (n : ℕ) (h : n.isValidChar) : (Char.ofNat n).toNat = n := by
  unfold Char.ofNat
  rw [dif_pos h]
  rfl

theorem normChar_not_upper (c d : Char) (h65 : 65 ≤ d.toNat) (h90 : d.toNat ≤ 90) :
    normChar c ≠ d := by
  simp only [normChar, lcChar]
  by_cases hc : c = ','
  · rw [if_pos hc]
    intro he
    rw [← he] at h65
    exact absurd h65 (by decide)
  · rw [if_neg hc]
    by_cases hu : 65 ≤ c.toNat ∧ c.toNat ≤ 90
    · rw [if_pos hu]
      intro he
      have ht := congrArg Char.toNat he
      rw [char_toNat_ofNat _ (isValidChar_small _ (by omega))] at ht
      omega
    · rw [if_neg hu]
      intro he
      rw [he] at hu
      exact hu ⟨h65, h90⟩

theorem normChar_ne_B (c : Char) : normChar c ≠ 'B' :=
  normChar_not_upper c 'B' (by decide) (by decide)

theorem normChar_norm (c : Char) : normChar (normChar c) = normChar c := by
  by_cases hc : c = ','
  · subst hc; decide
  · by_cases hu : 65 ≤ c.toNat ∧ c.toNat ≤ 90
    · have h1 : normChar c = Char.ofNat (c.toNat + 32) := by
        simp only [normChar, lcChar, if_neg hc, if_pos hu]
      have ht : (Char.ofNat (c.toNat + 32)).toNat = c.toNat + 32 :=
        char_toNat_ofNat _ (isValidChar_small _ (by omega))
      have hne : Char.ofNat (c.toNat + 32) ≠ ',' := by
        intro h
        have h2 := congrArg Char.toNat h
        rw [ht] at h2
        have h44 : (',' : Char).toNat = 44 := by decide
        omega
      rw [h1]
      simp only [normChar, lcChar, if_neg hne]
      rw [if_neg (by rw [ht]; omega)]
    · have h1 : normChar c = c := by simp only [normChar, lcChar, if_neg hc, if_neg hu]
      rw [h1, h1]

/-! ## Comment-line and keyword lemmas -/

theorem stripComment_not_comment (c : Char) (cs : List Char)
    (h1 : wsChar c = false) (h2 : (c = '#' || c = '!') = false) :
    stripComment (c :: cs) = none := by
  unfold stripComment
  rw [List.dropWhile_cons, if_neg (by simp [h1])]
  simp [h2]

theorem stripComment_numTok (t : String) (rest : List Char) (h : numTok t) :
    stripComment (t.data ++ rest) = none := by
  obtain ⟨h0, hws, hm1, hm2⟩ := h
  cases ht : t.data with
  | nil => exact absurd ht h0
  | cons c cs =>
    have hw : wsChar c = false := hws c (by rw [ht]; simp)
    have hc1 : c ≠ '#' := by intro he; apply hm1; rw [ht, he]; rfl
    have hc2 : c ≠ '!' := by intro he; apply hm2; rw [ht, he]; rfl
    rw [List.cons_append]
    exact stripComment_not_comment c (cs ++ rest) hw (by simp [hc1, hc2])

theorem commentKeywords_mem_chars (rest : List Char) (tok : String)
    (h : tok ∈ commentKeywords rest) :
    ∀ c ∈ tok.data, (∃ c', c = normChar c') ∧ wsChar c = false := by
  unfold commentKeywords at h
  by_cases hk : (rest.map normChar).take 8 = "keyword:".data
  · rw [if_pos hk] at h
    obtain ⟨t, ht, rfl⟩ := List.mem_map.mp h
    intro c hc
    have hc' : c ∈ t := hc
    constructor
    · have := splitWSAux_chars _ [] t ht c hc'
      rcases this with h1 | h1
      · have h2 : c ∈ (rest.map normChar) := List.drop_subset _ _ h1
        obtain ⟨c', _, hc'⟩ := List.mem_map.mp h2
        exact ⟨c', hc'.symm⟩
      · simp at h1
    · exact splitWSAux_nows _ [] (by simp) t ht c hc'
  · rw [if_neg hk] at h
    simp at h

theorem addedKeywords_comment (line : String) (rest : List Char)
    (h : stripComment line.data = some rest) :
    addedKeywords line = commentKeywords rest := by
  unfold addedKeywords
  rw [h]

theorem addedKeywords_node (line : String) (h : stripComment line.data = none) :
    addedKeywords line = [] := by
  unfold addedKeywords
  rw [h]

theorem addedKeywords_ne_freeBC (line : String) : "freeBC" ∉ addedKeywords line := by
  unfold addedKeywords
  cases hsc : stripComment line.data with
  | none => simp
  | some rest =>
    intro h
    have hch := commentKeywords_mem_chars rest _ h 'B' (by decide)
    obtain ⟨⟨c', hc'⟩, _⟩ := hch
    exact normChar_ne_B c' hc'.symm

/-! ## Body-loop lemmas -/

theorem processBodyLine_comment (pf : String → Option ℚ) (st : ScanState) (line : String)
    (rest : List Char) (h : stripComment line.data = some rest) :
    processBodyLine pf st line = .ok ⟨st.keywords ++ commentKeywords rest, st.atoms⟩ := by
  unfold processBodyLine
  rw [h]

theorem processBodyLine_node (pf : String → Option ℚ) (st : ScanState) (line : String)
    (t0 t1 t2 t3 : String) (ts : List String) (c0 c1 c2 : ℚ)
    (h : stripComment line.data = none)
    (hs : splitWS line = t0 :: t1 :: t2 :: t3 :: ts)
    (h0 : pf t0 = some c0) (h1 : pf t1 = some c1) (h2 : pf t2 = some c2) :
    processBodyLine pf st line =
      .ok ⟨st.keywords, st.atoms ++ [(⟨lineUnit st.keywords * c0, lineUnit st.keywords * c1,
        lineUnit st.keywords * c2⟩, t3)]⟩ := by
  unfold processBodyLine
  rw [h]
  simp only [hs, List.getD_cons_zero, List.getD_cons_succ]
  rw [if_pos (by simp)]
  rw [h0, h1, h2]

theorem processBodyLine_node_err (pf : String → Option ℚ) (st : ScanState) (line : String)
    (t0 t1 t2 t3 : String) (ts : List String)
    (h : stripComment line.data = none)
    (hs : splitWS line = t0 :: t1 :: t2 :: t3 :: ts)
    (hbad : pf t0 = none ∨ pf t1 = none ∨ pf t2 = none) :
    processBodyLine pf st line = .error .MalformedInput := by
  unfold processBodyLine
  rw [h]
  simp only [hs, List.getD_cons_zero, List.getD_cons_succ]
  rw [if_pos (by simp)]
  rcases hbad with hb | hb | hb
  · rw [hb]
  · rw [hb]; cases pf t0 <;> rfl
  · rw [hb]; cases pf t0 <;> try rfl
    all_goals (cases pf t1 <;> rfl)

theorem processBodyLine_ignored (pf : String → Option ℚ) (st : ScanState) (line : String)
    (h : stripComment line.data = none) (hlen : (splitWS line).length < 4) :
    processBodyLine pf st line = .ok st := by
  unfold processBodyLine
  rw [h]
  rw [if_neg (by omega)]

theorem processBodyLine_ok_parts (pf : String → Option ℚ) (st : ScanState) (line : String)
    (st' : ScanState) (h : processBodyLine pf st line = .ok st') :
    st'.keywords = st.keywords ++ addedKeywords line ∧ ∃ tl, st'.atoms = st.atoms ++ tl := by
  unfold processBodyLine at h
  cases hsc : stripComment line.data with
  | some rest =>
    rw [hsc] at h
    cases h
    rw [addedKeywords_comment _ _ hsc]
    exact ⟨rfl, [], by simp⟩
  | none =>
    rw [hsc] at h
    rw [addedKeywords_node _ hsc]
    by_cases hlen : 4 ≤ (splitWS line).length
    · rw [if_pos hlen] at h
      cases hp0 : pf ((splitWS line).getD 0 "") with
      | none =>
        rw [hp0] at h
        cases pf ((splitWS line).getD 1 "") <;> cases pf ((splitWS line).getD 2 "") <;> simp at h
      | some c0 =>
        rw [hp0] at h
        cases hp1 : pf ((splitWS line).getD 1 "") with
        | none =>
          rw [hp1] at h
          cases pf ((splitWS line).getD 2 "") <;> simp at h
        | some c1 =>
          rw [hp1] at h
          cases hp2 : pf ((splitWS line).getD 2 "") with
          | none => rw [hp2] at h; simp at h
          | some c2 =>
            rw [hp2] at h
            cases h
            exact ⟨by simp, _, rfl⟩
    · rw [if_neg hlen] at h
      cases h
      exact ⟨by simp, [], by simp⟩

theorem processBodyLine_error_eq (pf : String → Option ℚ) (st : ScanState) (line : String)
    (e : VErr) (h : processBodyLine pf st line = .error e) : e = .MalformedInput := by
  unfold processBodyLine at h
  cases hsc : stripComment line.data with
  | some rest => rw [hsc] at h; simp at h
  | none =>
    rw [hsc] at h
    by_cases hlen : 4 ≤ (splitWS line).length
    · rw [if_pos hlen] at h
      cases hp0 : pf ((splitWS line).getD 0 "") <;> rw [hp0] at h
      · injection h with h2; exact h2.symm
      · cases hp1 : pf ((splitWS line).getD 1 "") <;> rw [hp1] at h
        · injection h with h2; exact h2.symm
        · cases hp2 : pf ((splitWS line).getD 2 "") <;> rw [hp2] at h
          · injection h with h2; exact h2.symm
          · simp at h
    · rw [if_neg hlen] at h; simp at h

theorem scanBody_append (pf : String → Option ℚ) (a b : List String) :
    ∀ st, scanBody pf st (a ++ b) =
      match scanBody pf st a with
      | .ok st' => scanBody pf st' b
      | .error e => .error e := by
  induction a with
  | nil => intro st; rfl
  | cons l ls ih =>
    intro st
    show (match processBodyLine pf st l with
      | .ok st' => scanBody pf st' (ls ++ b)
      | .error e => .error e) =
      match (match processBodyLine pf st l with
        | .ok st' => scanBody pf st' ls
        | .error e => (.error e : Except VErr ScanState)) with
      | .ok st' => scanBody pf st' b
      | .error e => .error e
    cases processBodyLine pf st l with
    | ok st' => exact ih st'
    | error e => rfl

theorem scanBody_error_eq (pf : String → Option ℚ) (ls : List String) :
    ∀ st e, scanBody pf st ls = .error e → e = .MalformedInput := by
  induction ls with
  | nil => intro st e h; simp [scanBody] at h
  | cons l ls ih =>
    intro st e h
    unfold scanBody at h
    cases hp : processBodyLine pf st l with
    | ok st' => rw [hp] at h; exact ih st' e h
    | error e' =>
      rw [hp] at h
      cases h
      exact processBodyLine_error_eq pf st l _ hp

theorem scanBody_ok_parts (pf : String → Option ℚ) (ls : List String) :
    ∀ st st', scanBody pf st ls = .ok st' →
      st'.keywords = st.keywords ++ bodyKeywords ls ∧ ∃ tl, st'.atoms = st.atoms ++ tl := by
  induction ls with
  | nil =>
    intro st st' h
    cases h
    exact ⟨by simp [bodyKeywords], [], by simp⟩
  | cons l ls ih =>
    intro st st' h
    unfold scanBody at h
    cases hp : processBodyLine pf st l with
    | ok st1 =>
      rw [hp] at h
      obtain ⟨hk1, tl1, ha1⟩ := processBodyLine_ok_parts pf st l st1 hp
      obtain ⟨hk2, tl2, ha2⟩ := ih st1 st' h
      refine ⟨?_, tl1 ++ tl2, ?_⟩
      · rw [hk2, hk1, bodyKeywords]
        simp [bodyKeywords, List.flatMap_cons]
      · rw [ha2, ha1]
        simp
    | error e' => rw [hp] at h; simp at h

/-! ## Header lemmas -/

theorem parseAll_mem_none (pf : String → Option ℚ) (ts : List String) (tok : String)
    (hmem : tok ∈ ts) (hn : pf tok = none) :
    parseAll pf ts = .error .MalformedInput := by
  induction ts with
  | nil => simp at hmem
  | cons t ts ih =>
    unfold parseAll
    cases hp : pf t with
    | none => rfl
    | some q =>
      have ht : tok ∈ ts := by
        rcases List.mem_cons.mp hmem with h1 | h1
        · subst h1; rw [hp] at hn; cases hn
        · exact h1
      rw [ih ht]

theorem parseAll_map_some (pf : String → Option ℚ) (f : ℚ → String) (qs : List ℚ)
    (h : ∀ q ∈ qs, pf (f q) = some q) :
    parseAll pf (qs.map f) = .ok qs := by
  induction qs with
  | nil => rfl
  | cons q qs ih =>
    rw [List.map_cons]
    unfold parseAll
    rw [h q (by simp), ih (fun q hq => h q (by simp [hq]))]

theorem parseAll_error_eq (pf : String → Option ℚ) (ts : List String) :
    ∀ e, parseAll pf ts = .error e → e = .MalformedInput := by
  induction ts with
  | nil => intro e h; simp [parseAll] at h
  | cons t ts ih =>
    intro e h
    unfold parseAll at h
    cases hp : pf t with
    | none =>
      rw [hp] at h
      injection h with h2
      exact h2.symm
    | some q =>
      rw [hp] at h
      cases hq : parseAll pf ts with
      | ok qs => rw [hq] at h; simp at h
      | error e' =>
        rw [hq] at h
        injection h with h2
        rw [← h2]
        exact ih e' hq

theorem cellFromKeywords_error_eq (cpc : List ℚ → Mat3) (kws : List String) (box : List ℚ)
    (e : VErr) (h : cellFromKeywords cpc kws box = .error e) : e = .MalformedInput := by
  unfold cellFromKeywords at h
  by_cases ha : kws.contains "angdeg" = true
  · rw [if_pos ha] at h; cases h
  · rw [if_neg ha] at h
    cases hl : lowerFill box with
    | ok m => rw [hl] at h; cases h
    | error e' =>
      rw [hl] at h
      cases h
      unfold lowerFill at hl
      split at hl
      · cases hl
      · cases hl
      · cases hl; rfl

/-! ## Algebra lemmas -/

theorem msmul_one (m : Mat3) : msmul 1 m = m := by
  cases m with
  | mk r0 r1 r2 =>
    cases r0; cases r1; cases r2
    simp [msmul, vsmul]

theorem vecMul_inv3_cancel (m : Mat3) (h : det3 m ≠ 0) (v : Vec3) :
    vecMul (vecMul v (inv3 m)) m = v := by
  obtain ⟨⟨a, b, c⟩, ⟨d, e, f⟩, ⟨g, p, i⟩⟩ := m
  obtain ⟨x, y, z⟩ := v
  simp only [det3] at h
  simp only [vecMul, inv3, det3, Vec3.mk.injEq]
  refine ⟨?_, ?_, ?_⟩ <;> field_simp <;> ring

/-! ## Scan lemmas for keyword placement and failure propagation -/

theorem scanBody_node_bad (pf : String → Option ℚ) (L t0 t1 t2 t3 : String)
    (ts : List String) (hsc : stripComment L.data = none)
    (hs : splitWS L = t0 :: t1 :: t2 :: t3 :: ts)
    (hbad : pf t0 = none ∨ pf t1 = none ∨ pf t2 = none) :
    ∀ (body : List String) (st : ScanState), L ∈ body →
      scanBody pf st body = .error .MalformedInput := by
  intro body
  induction body with
  | nil => intro st hmem; simp at hmem
  | cons l ls ih =>
    intro st hmem
    unfold scanBody
    rcases List.mem_cons.mp hmem with hm | hm
    · subst hm
      rw [processBodyLine_node_err pf st L t0 t1 t2 t3 ts hsc hs hbad]
    · cases hp : processBodyLine pf st l with
      | ok st' => exact ih st' hm
      | error e => rw [processBodyLine_error_eq pf st l e hp]

theorem rawProcessBodyLine_comment (pf : String → Option ℚ) (st : ScanState) (line : String)
    (rest : List Char) (h : stripComment line.data = some rest) :
    rawProcessBodyLine pf st line = .ok ⟨st.keywords ++ commentKeywords rest, st.atoms⟩ := by
  unfold rawProcessBodyLine
  rw [h]

theorem rawProcessBodyLine_node (pf : String → Option ℚ) (st : ScanState) (line : String)
    (t0 t1 t2 t3 : String) (ts : List String) (c0 c1 c2 : ℚ)
    (h : stripComment line.data = none)
    (hs : splitWS line = t0 :: t1 :: t2 :: t3 :: ts)
    (h0 : pf t0 = some c0) (h1 : pf t1 = some c1) (h2 : pf t2 = some c2) :
    rawProcessBodyLine pf st line =
      .ok ⟨st.keywords, st.atoms ++ [(⟨c0, c1, c2⟩, t3)]⟩ := by
  unfold rawProcessBodyLine
  rw [h]
  simp only [hs, List.getD_cons_zero, List.getD_cons_succ]
  rw [if_pos (by simp)]
  rw [h0, h1, h2]

theorem rawProcessBodyLine_ignored (pf : String → Option ℚ) (st : ScanState) (line : String)
    (h : stripComment line.data = none) (hlen : (splitWS line).length < 4) :
    rawProcessBodyLine pf st line = .ok st := by
  unfold rawProcessBodyLine
  rw [h]
  rw [if_neg (by omega)]

theorem rawScanBody_append (pf : String → Option ℚ) (a b : List String) :
    ∀ st, rawScanBody pf st (a ++ b) =
      match rawScanBody pf st a with
      | .ok st' => rawScanBody pf st' b
      | .error e => .error e := by
  induction a with
  | nil => intro st; rfl
  | cons l ls ih =>
    intro st
    show (match rawProcessBodyLine pf st l with
      | .ok st' => rawScanBody pf st' (ls ++ b)
      | .error e => .error e) =
      match (match rawProcessBodyLine pf st l with
        | .ok st' => rawScanBody pf st' ls
        | .error e => (.error e : Except VErr ScanState)) with
      | .ok st' => rawScanBody pf st' b
      | .error e => .error e
    cases rawProcessBodyLine pf st l with
    | ok st' => exact ih st'
    | error e => rfl

theorem scanBody_comment_only (pf : String → Option ℚ) (b : List String)
    (hb : ∀ l ∈ b, (splitWS l).length < 4 ∨ stripComment l.data ≠ none) :
    ∀ K A, scanBody pf ⟨K, A⟩ b = .ok ⟨K ++ bodyKeywords b, A⟩ ∧
      rawScanBody pf ⟨K, A⟩ b = .ok ⟨K ++ bodyKeywords b, A⟩ := by
  induction b with
  | nil =>
    intro K A
    constructor <;> simp [scanBody, rawScanBody, bodyKeywords]
  | cons l ls ih =>
    intro K A
    have ihl := ih (fun x hx => hb x (by simp [hx]))
    cases hsc : stripComment l.data with
    | some rest =>
      have hadd : addedKeywords l = commentKeywords rest := addedKeywords_comment l rest hsc
      constructor
      · show (match processBodyLine pf ⟨K, A⟩ l with
          | .ok st' => scanBody pf st' ls
          | .error e => .error e) = _
        rw [processBodyLine_comment pf ⟨K, A⟩ l rest hsc]
        show scanBody pf ⟨K ++ commentKeywords rest, A⟩ ls = _
        rw [(ihl (K ++ commentKeywords rest) A).1]
        simp [bodyKeywords, hadd]
      · show (match rawProcessBodyLine pf ⟨K, A⟩ l with
          | .ok st' => rawScanBody pf st' ls
          | .error e => .error e) = _
        rw [rawProcessBodyLine_comment pf ⟨K, A⟩ l rest hsc]
        show rawScanBody pf ⟨K ++ commentKeywords rest, A⟩ ls = _
        rw [(ihl (K ++ commentKeywords rest) A).2]
        simp [bodyKeywords, hadd]
    | none =>
      have hlen : (splitWS l).length < 4 := by
        rcases hb l (by simp) with h | h
        · exact h
        · exact absurd hsc h
      have hadd : addedKeywords l = [] := addedKeywords_node l hsc
      constructor
      · show (match processBodyLine pf ⟨K, A⟩ l with
          | .ok st' => scanBody pf st' ls
          | .error e => .error e) = _
        rw [processBodyLine_ignored pf ⟨K, A⟩ l hsc hlen]
        show scanBody pf ⟨K, A⟩ ls = _
        rw [(ihl K A).1]
        simp [bodyKeywords, hadd]
      · show (match rawProcessBodyLine pf ⟨K, A⟩ l with
          | .ok st' => rawScanBody pf st' ls
          | .error e => .error e) = _
        rw [rawProcessBodyLine_ignored pf ⟨K, A⟩ l hsc hlen]
        show rawScanBody pf ⟨K, A⟩ ls = _
        rw [(ihl K A).2]
        simp [bodyKeywords, hadd]

theorem scanBody_nokw_rel (pf : String → Option ℚ) (b : List String)
    (hkw : ∀ l ∈ b, addedKeywords l = []) :
    ∀ (K : List String) (A A' : List (Vec3 × String)) (st st' : ScanState),
      scanBody pf ⟨K, A⟩ b = .ok st → rawScanBody pf ⟨K, A'⟩ b = .ok st' →
      st.keywords = K ∧ st'.keywords = K ∧
        ∃ ats, st.atoms = A ++ ats.map (fun a => (vsmul (lineUnit K) a.1, a.2)) ∧
          st'.atoms = A' ++ ats := by
  induction b with
  | nil =>
    intro K A A' st st' h h'
    cases h
    cases h'
    exact ⟨rfl, rfl, [], by simp, by simp⟩
  | cons l ls ih =>
    intro K A A' st st' h h'
    have hkl : addedKeywords l = [] := hkw l (by simp)
    have ihl := ih (fun x hx => hkw x (by simp [hx]))
    cases hsc : stripComment l.data with
    | some rest =>
      have hck : commentKeywords rest = [] := by
        rw [← addedKeywords_comment l rest hsc]; exact hkl
      unfold scanBody at h
      rw [processBodyLine_comment pf ⟨K, A⟩ l rest hsc] at h
      unfold rawScanBody at h'
      rw [rawProcessBodyLine_comment pf ⟨K, A'⟩ l rest hsc] at h'
      rw [hck] at h h'
      simp only [List.append_nil] at h h'
      exact ihl K A A' st st' h h'
    | none =>
      by_cases hlen : 4 ≤ (splitWS l).length
      · rcases hsp : splitWS l with _ | ⟨t0, _ | ⟨t1, _ | ⟨t2, _ | ⟨t3, ts⟩⟩⟩⟩ <;>
          rw [hsp] at hlen <;> try simp at hlen
        cases hp0 : pf t0 with
        | none =>
          unfold scanBody at h
          rw [processBodyLine_node_err pf ⟨K, A⟩ l t0 t1 t2 t3 ts hsc hsp (Or.inl hp0)] at h
          cases h
        | some c0 =>
          cases hp1 : pf t1 with
          | none =>
            unfold scanBody at h
            rw [processBodyLine_node_err pf ⟨K, A⟩ l t0 t1 t2 t3 ts hsc hsp
              (Or.inr (Or.inl hp1))] at h
            cases h
          | some c1 =>
            cases hp2 : pf t2 with
            | none =>
              unfold scanBody at h
              rw [processBodyLine_node_err pf ⟨K, A⟩ l t0 t1 t2 t3 ts hsc hsp
                (Or.inr (Or.inr hp2))] at h
              cases h
            | some c2 =>
              unfold scanBody at h
              rw [processBodyLine_node pf ⟨K, A⟩ l t0 t1 t2 t3 ts c0 c1 c2
                hsc hsp hp0 hp1 hp2] at h
              unfold rawScanBody at h'
              rw [rawProcessBodyLine_node pf ⟨K, A'⟩ l t0 t1 t2 t3 ts c0 c1 c2
                hsc hsp hp0 hp1 hp2] at h'
              obtain ⟨hk1, hk2, ats, ha1, ha2⟩ := ihl K _ _ st st' h h'
              refine ⟨hk1, hk2, (⟨c0, c1, c2⟩, t3) :: ats, ?_, ?_⟩
              · rw [ha1]
                simp [vsmul]
              · rw [ha2]
                simp
      · unfold scanBody at h
        rw [processBodyLine_ignored pf ⟨K, A⟩ l hsc (by omega)] at h
        unfold rawScanBody at h'
        rw [rawProcessBodyLine_ignored pf ⟨K, A'⟩ l hsc (by omega)] at h'
        exact ihl K A A' st st' h h'

/-! ## Evaluation-step lemmas

The kernel cannot reduce `Rat` arithmetic, so closed instances of the
codec are evaluated through the following small rewriting steps, with
`norm_num` discharging the rational arithmetic. -/

theorem scanBody_cons_ok (pf : String → Option ℚ) (st : ScanState) (l : String)
    (ls : List String) (st' : ScanState) (h : processBodyLine pf st l = .ok st') :
    scanBody pf st (l :: ls) = scanBody pf st' ls := by
  show (match processBodyLine pf st l with
    | .ok st'' => scanBody pf st'' ls
    | .error e => .error e) = _
  rw [h]

theorem rawScanBody_cons_ok (pf : String → Option ℚ) (st : ScanState) (l : String)
    (ls : List String) (st' : ScanState) (h : rawProcessBodyLine pf st l = .ok st') :
    rawScanBody pf st (l :: ls) = rawScanBody pf st' ls := by
  show (match rawProcessBodyLine pf st l with
    | .ok st'' => rawScanBody pf st'' ls
    | .error e => .error e) = _
  rw [h]

theorem parseAll_all_some (pf : String → Option ℚ) (ts : List String) (qs : List ℚ)
    (h : List.Forall₂ (fun t q => pf t = some q) ts qs) : parseAll pf ts = .ok qs := by
  induction h with
  | nil => rfl
  | cons h1 _ ih =>
    unfold parseAll
    rw [h1, ih]

theorem decodeLines_header_err (pf : String → Option ℚ) (cpc : List ℚ → Mat3)
    (lines : List String) (e : VErr)
    (hbox : parseAll pf (splitWS (lines.getD 1 "" ++ " " ++ lines.getD 2 "")) = .error e) :
    decodeLines pf cpc lines = .error e := by
  unfold decodeLines
  rw [hbox]

theorem decodeLines_expand (pf : String → Option ℚ) (cpc : List ℚ → Mat3)
    (t h1 h2 : String) (body : List String) (box : List ℚ)
    (hbox : parseAll pf (splitWS (h1 ++ " " ++ h2)) = .ok box) :
    decodeLines pf cpc (t :: h1 :: h2 :: body) = decodeBody pf cpc box body := by
  unfold decodeLines
  have hg1 : (t :: h1 :: h2 :: body).getD 1 "" = h1 := rfl
  have hg2 : (t :: h1 :: h2 :: body).getD 2 "" = h2 := rfl
  have hd : (t :: h1 :: h2 :: body).drop 3 = body := rfl
  rw [hg1, hg2, hd, hbox]

theorem decodeBody_scan_err (pf : String → Option ℚ) (cpc : List ℚ → Mat3)
    (box : List ℚ) (body : List String) (e : VErr)
    (hst : scanBody pf ⟨[], []⟩ body = .error e) :
    decodeBody pf cpc box body = .error e := by
  unfold decodeBody
  rw [hst]

theorem decodeLines_expand' (pf : String → Option ℚ) (cpc : List ℚ → Mat3)
    (lines : List String) (box : List ℚ)
    (hbox : parseAll pf (splitWS (lines.getD 1 "" ++ " " ++ lines.getD 2 "")) = .ok box) :
    decodeLines pf cpc lines = decodeBody pf cpc box (lines.drop 3) := by
  unfold decodeLines
  rw [hbox]

theorem decodeBody_ok_st (pf : String → Option ℚ) (cpc : List ℚ → Mat3)
    (box : List ℚ) (body : List String) (st : ScanState)
    (hst : scanBody pf ⟨[], []⟩ body = .ok st) :
    decodeBody pf cpc box body =
      if (st.keywords.contains "surface" || st.keywords.contains "freeBC") = true then
        Except.error VErr.UnsupportedFeature
      else
        match cellFromKeywords cpc st.keywords box with
        | .error e => .error e
        | .ok cell =>
          Except.ok ⟨cell,
            (if st.keywords.contains "reduced" = true then
              st.atoms.map (fun a => (vecMul a.1 cell, a.2))
            else st.atoms),
            (false, false, false)⟩ := by
  unfold decodeBody
  rw [hst]

theorem decodeBody_expand_err (pf : String → Option ℚ) (cpc : List ℚ → Mat3)
    (box : List ℚ) (body : List String) (st : ScanState) (e : VErr)
    (hst : scanBody pf ⟨[], []⟩ body = .ok st)
    (hsf : (st.keywords.contains "surface" || st.keywords.contains "freeBC") = false)
    (hc : cellFromKeywords cpc st.keywords box = .error e) :
    decodeBody pf cpc box body = .error e := by
  rw [decodeBody_ok_st pf cpc box body st hst, if_neg (by rw [hsf]; decide), hc]

theorem decodeBody_eval_surface (pf : String → Option ℚ) (cpc : List ℚ → Mat3)
    (box : List ℚ) (body : List String) (st : ScanState)
    (hst : scanBody pf ⟨[], []⟩ body = .ok st)
    (hsf : (st.keywords.contains "surface" || st.keywords.contains "freeBC") = true) :
    decodeBody pf cpc box body = .error .UnsupportedFeature := by
  rw [decodeBody_ok_st pf cpc box body st hst, if_pos hsf]

theorem decodeBody_eval_nored (pf : String → Option ℚ) (cpc : List ℚ → Mat3)
    (box : List ℚ) (body : List String) (st : ScanState) (cell : Mat3)
    (hst : scanBody pf ⟨[], []⟩ body = .ok st)
    (hsf : (st.keywords.contains "surface" || st.keywords.contains "freeBC") = false)
    (hcell : cellFromKeywords cpc st.keywords box = .ok cell)
    (hred : st.keywords.contains "reduced" = false) :
    decodeBody pf cpc box body = .ok ⟨cell, st.atoms, (false, false, false)⟩ := by
  rw [decodeBody_ok_st pf cpc box body st hst, if_neg (by rw [hsf]; decide), hcell]
  show Except.ok (⟨cell, (if st.keywords.contains "reduced" = true then
      st.atoms.map (fun a => (vecMul a.1 cell, a.2)) else st.atoms),
      (false, false, false)⟩ : Record) = _
  rw [if_neg (by rw [hred]; decide)]

theorem decodeBody_eval_red (pf : String → Option ℚ) (cpc : List ℚ → Mat3)
    (box : List ℚ) (body : List String) (st : ScanState) (cell : Mat3)
    (hst : scanBody pf ⟨[], []⟩ body = .ok st)
    (hsf : (st.keywords.contains "surface" || st.keywords.contains "freeBC") = false)
    (hcell : cellFromKeywords cpc st.keywords box = .ok cell)
    (hred : st.keywords.contains "reduced" = true) :
    decodeBody pf cpc box body =
      .ok ⟨cell, st.atoms.map (fun a => (vecMul a.1 cell, a.2)), (false, false, false)⟩ := by
  rw [decodeBody_ok_st pf cpc box body st hst, if_neg (by rw [hsf]; decide), hcell]
  show Except.ok (⟨cell, (if st.keywords.contains "reduced" = true then
      st.atoms.map (fun a => (vecMul a.1 cell, a.2)) else st.atoms),
      (false, false, false)⟩ : Record) = _
  rw [if_pos hred]

theorem cellFromKeywords_noang (cpc : List ℚ → Mat3) (kws : List String)
    (box : List ℚ) (M : Mat3)
    (hang : kws.contains "angdeg" = false) (hM : lowerFill box = .ok M) :
    cellFromKeywords cpc kws box = .ok (msmul (if bohrFamily kws then Bohr else 1) M) := by
  unfold cellFromKeywords
  rw [if_neg (by rw [hang]; decide), hM]

/-! ## Concrete evaluations -/

theorem lineUnit_nil : lineUnit [] = 1 := by
  unfold lineUnit
  rw [if_neg (by decide), if_neg (by decide)]

theorem lineUnit_bohrOnly : lineUnit ["bohr"] = Bohr := by
  unfold lineUnit
  rw [if_neg (by decide), if_pos (by decide)]

theorem lineUnit_surfaceOnly : lineUnit ["surface"] = 1 := by
  unfold lineUnit
  rw [if_neg (by decide), if_neg (by decide)]

theorem lineUnit_freebcOnly : lineUnit ["freebc"] = 1 := by
  unfold lineUnit
  rw [if_neg (by decide), if_neg (by decide)]

theorem pfQ_zero : pfQ "0" = some 0 := by
  have h : pfQ "0" = some ((1 : ℚ) * ((0 : ℕ) : ℚ)) := rfl
  rw [h]
  norm_num

theorem pfQ_one : pfQ "1" = some 1 := by
  have h : pfQ "1" = some ((1 : ℚ) * ((1 : ℕ) : ℚ)) := rfl
  rw [h]
  norm_num

theorem pfQ_two : pfQ "2" = some 2 := by
  have h : pfQ "2" = some ((1 : ℚ) * ((2 : ℕ) : ℚ)) := rfl
  rw [h]
  norm_num

theorem pfQ_half : pfQ "1/2" = some (1/2) := by
  have h : pfQ "1/2" = some ((1 : ℚ) * ((1 : ℕ) : ℚ) / ((2 : ℕ) : ℚ)) := rfl
  rw [h]
  norm_num

theorem parseAll_boxId : parseAll pfQ ["1", "0", "1", "0", "0", "1"] = .ok [1, 0, 1, 0, 0, 1] :=
  parseAll_all_some pfQ _ _
    (.cons pfQ_one (.cons pfQ_zero (.cons pfQ_one
      (.cons pfQ_zero (.cons pfQ_zero (.cons pfQ_one .nil))))))

theorem parseAll_boxTwo : parseAll pfQ ["2", "0", "2", "0", "0", "2"] = .ok [2, 0, 2, 0, 0, 2] :=
  parseAll_all_some pfQ _ _
    (.cons pfQ_two (.cons pfQ_zero (.cons pfQ_two
      (.cons pfQ_zero (.cons pfQ_zero (.cons pfQ_two .nil))))))

theorem cellId_eval : cellFromKeywords cpc0 ["bohr"] [1, 0, 1, 0, 0, 1] = .ok (msmul Bohr mId) := by
  rw [cellFromKeywords_noang cpc0 ["bohr"] [1, 0, 1, 0, 0, 1] mId (by decide) rfl]
  rw [if_pos (by decide)]

theorem cellId_eval_nobohr (kws : List String) (hb : bohrFamily kws = false)
    (hang : kws.contains "angdeg" = false) :
    cellFromKeywords cpc0 kws [1, 0, 1, 0, 0, 1] = .ok mId := by
  rw [cellFromKeywords_noang cpc0 kws [1, 0, 1, 0, 0, 1] mId hang rfl]
  rw [if_neg (by rw [hb]; decide), msmul_one]

theorem scan_bohr_only :
    scanBody pfQ ⟨[], []⟩ ["#keyword: bohr"] = .ok ⟨["bohr"], []⟩ := by
  have h1 : processBodyLine pfQ ⟨[], []⟩ "#keyword: bohr" = .ok ⟨["bohr"], []⟩ := by
    rw [processBodyLine_comment pfQ ⟨[], []⟩ "#keyword: bohr" ("keyword: bohr".data) (by decide)]
    decide
  rw [scanBody_cons_ok pfQ ⟨[], []⟩ _ _ _ h1]
  rfl

theorem scan_bohr_before :
    scanBody pfQ ⟨[], []⟩ ["#keyword: bohr", "1 0 0 C"] =
      .ok ⟨["bohr"], [(⟨Bohr, 0, 0⟩, "C")]⟩ := by
  have h1 : processBodyLine pfQ ⟨[], []⟩ "#keyword: bohr" = .ok ⟨["bohr"], []⟩ := by
    rw [processBodyLine_comment pfQ ⟨[], []⟩ "#keyword: bohr" ("keyword: bohr".data) (by decide)]
    decide
  have h2 : processBodyLine pfQ ⟨["bohr"], []⟩ "1 0 0 C" =
      .ok ⟨["bohr"], [(⟨Bohr, 0, 0⟩, "C")]⟩ := by
    rw [processBodyLine_node pfQ ⟨["bohr"], []⟩ "1 0 0 C" "1" "0" "0" "C" [] 1 0 0
      (by decide) (by decide) pfQ_one pfQ_zero pfQ_zero]
    show Except.ok (⟨["bohr"],
      [] ++ [(⟨lineUnit ["bohr"] * 1, lineUnit ["bohr"] * 0, lineUnit ["bohr"] * 0⟩, "C")]⟩ : ScanState) = _
    rw [lineUnit_bohrOnly]
    simp
  rw [scanBody_cons_ok pfQ ⟨[], []⟩ _ _ _ h1, scanBody_cons_ok pfQ ⟨["bohr"], []⟩ _ _ _ h2]
  rfl

theorem rawScan_bohr_before :
    rawScanBody pfQ ⟨[], []⟩ ["#keyword: bohr", "1 0 0 C"] =
      .ok ⟨["bohr"], [(⟨1, 0, 0⟩, "C")]⟩ := by
  have h1 : rawProcessBodyLine pfQ ⟨[], []⟩ "#keyword: bohr" = .ok ⟨["bohr"], []⟩ := by
    rw [rawProcessBodyLine_comment pfQ ⟨[], []⟩ "#keyword: bohr" ("keyword: bohr".data) (by decide)]
    decide
  have h2 : rawProcessBodyLine pfQ ⟨["bohr"], []⟩ "1 0 0 C" =
      .ok ⟨["bohr"], [(⟨1, 0, 0⟩, "C")]⟩ := by
    rw [rawProcessBodyLine_node pfQ ⟨["bohr"], []⟩ "1 0 0 C" "1" "0" "0" "C" [] 1 0 0
      (by decide) (by decide) pfQ_one pfQ_zero pfQ_zero]
    simp
  rw [rawScanBody_cons_ok pfQ ⟨[], []⟩ _ _ _ h1, rawScanBody_cons_ok pfQ ⟨["bohr"], []⟩ _ _ _ h2]
  rfl

theorem scan_node_then_bohr :
    scanBody pfQ ⟨[], []⟩ ["1 0 0 C", "#keyword: bohr"] =
      .ok ⟨["bohr"], [(⟨1, 0, 0⟩, "C")]⟩ := by
  have h1 : processBodyLine pfQ ⟨[], []⟩ "1 0 0 C" = .ok ⟨[], [(⟨1, 0, 0⟩, "C")]⟩ := by
    rw [processBodyLine_node pfQ ⟨[], []⟩ "1 0 0 C" "1" "0" "0" "C" [] 1 0 0
      (by decide) (by decide) pfQ_one pfQ_zero pfQ_zero]
    show Except.ok (⟨[],
      [] ++ [(⟨lineUnit [] * 1, lineUnit [] * 0, lineUnit [] * 0⟩, "C")]⟩ : ScanState) = _
    rw [lineUnit_nil]
    simp
  have h2 : processBodyLine pfQ ⟨[], [(⟨1, 0, 0⟩, "C")]⟩ "#keyword: bohr" =
      .ok ⟨["bohr"], [(⟨1, 0, 0⟩, "C")]⟩ := by
    rw [processBodyLine_comment pfQ ⟨[], [(⟨1, 0, 0⟩, "C")]⟩ "#keyword: bohr"
      ("keyword: bohr".data) (by decide)]
    show Except.ok (⟨[] ++ commentKeywords ("keyword: bohr".data), [(⟨1, 0, 0⟩, "C")]⟩ : ScanState) = _
    rw [show commentKeywords ("keyword: bohr".data) = ["bohr"] from by decide]
    rfl
  rw [scanBody_cons_ok pfQ ⟨[], []⟩ _ _ _ h1,
    scanBody_cons_ok pfQ ⟨[], [(⟨1, 0, 0⟩, "C")]⟩ _ _ _ h2]
  rfl

theorem scan_surface_ok :
    scanBody pfQ ⟨[], []⟩ ["#keyword: surface", "1 0 0 C"] =
      .ok ⟨["surface"], [(⟨1, 0, 0⟩, "C")]⟩ := by
  have h1 : processBodyLine pfQ ⟨[], []⟩ "#keyword: surface" = .ok ⟨["surface"], []⟩ := by
    rw [processBodyLine_comment pfQ ⟨[], []⟩ "#keyword: surface"
      ("keyword: surface".data) (by decide)]
    decide
  have h2 : processBodyLine pfQ ⟨["surface"], []⟩ "1 0 0 C" =
      .ok ⟨["surface"], [(⟨1, 0, 0⟩, "C")]⟩ := by
    rw [processBodyLine_node pfQ ⟨["surface"], []⟩ "1 0 0 C" "1" "0" "0" "C" [] 1 0 0
      (by decide) (by decide) pfQ_one pfQ_zero pfQ_zero]
    show Except.ok (⟨["surface"],
      [] ++ [(⟨lineUnit ["surface"] * 1, lineUnit ["surface"] * 0, lineUnit ["surface"] * 0⟩, "C")]⟩ : ScanState) = _
    rw [lineUnit_surfaceOnly]
    simp
  rw [scanBody_cons_ok pfQ ⟨[], []⟩ _ _ _ h1, scanBody_cons_ok pfQ ⟨["surface"], []⟩ _ _ _ h2]
  rfl

theorem scan_freebc :
    scanBody pfQ ⟨[], []⟩ ["#keyword: freeBC", "1 0 0 C"] =
      .ok ⟨["freebc"], [(⟨1, 0, 0⟩, "C")]⟩ := by
  have h1 : processBodyLine pfQ ⟨[], []⟩ "#keyword: freeBC" = .ok ⟨["freebc"], []⟩ := by
    rw [processBodyLine_comment pfQ ⟨[], []⟩ "#keyword: freeBC"
      ("keyword: freeBC".data) (by decide)]
    decide
  have h2 : processBodyLine pfQ ⟨["freebc"], []⟩ "1 0 0 C" =
      .ok ⟨["freebc"], [(⟨1, 0, 0⟩, "C")]⟩ := by
    rw [processBodyLine_node pfQ ⟨["freebc"], []⟩ "1 0 0 C" "1" "0" "0" "C" [] 1 0 0
      (by decide) (by decide) pfQ_one pfQ_zero pfQ_zero]
    show Except.ok (⟨["freebc"],
      [] ++ [(⟨lineUnit ["freebc"] * 1, lineUnit ["freebc"] * 0, lineUnit ["freebc"] * 0⟩, "C")]⟩ : ScanState) = _
    rw [lineUnit_freebcOnly]
    simp
  rw [scanBody_cons_ok pfQ ⟨[], []⟩ _ _ _ h1, scanBody_cons_ok pfQ ⟨["freebc"], []⟩ _ _ _ h2]
  rfl

theorem scan_indent_kw :
    scanBody pfQ ⟨[], []⟩ ["#  keyword: reduced", "1/2 0 0 X"] =
      .ok ⟨[], [(⟨1/2, 0, 0⟩, "X")]⟩ := by
  have h1 : processBodyLine pfQ ⟨[], []⟩ "#  keyword: reduced" = .ok ⟨[], []⟩ := by
    rw [processBodyLine_comment pfQ ⟨[], []⟩ "#  keyword: reduced"
      ("  keyword: reduced".data) (by decide)]
    decide
  have h2 : processBodyLine pfQ ⟨[], []⟩ "1/2 0 0 X" =
      .ok ⟨[], [(⟨1/2, 0, 0⟩, "X")]⟩ := by
    rw [processBodyLine_node pfQ ⟨[], []⟩ "1/2 0 0 X" "1/2" "0" "0" "X" [] (1/2) 0 0
      (by decide) (by decide) pfQ_half pfQ_zero pfQ_zero]
    show Except.ok (⟨[],
      [] ++ [(⟨lineUnit [] * (1/2), lineUnit [] * 0, lineUnit [] * 0⟩, "X")]⟩ : ScanState) = _
    rw [lineUnit_nil]
    simp
  rw [scanBody_cons_ok pfQ ⟨[], []⟩ _ _ _ h1, scanBody_cons_ok pfQ ⟨[], []⟩ _ _ _ h2]
  rfl

theorem decode_fileKwBefore :
    decodeLines pfQ cpc0 fileKwBefore =
      .ok ⟨msmul Bohr mId, [(⟨Bohr, 0, 0⟩, "C")], (false, false, false)⟩ := by
  show decodeLines pfQ cpc0
    ("sample" :: "1 0 1" :: "0 0 1" :: ["#keyword: bohr", "1 0 0 C"]) = _
  rw [decodeLines_expand pfQ cpc0 "sample" "1 0 1" "0 0 1" _ [1, 0, 1, 0, 0, 1] (by
    rw [show splitWS ("1 0 1" ++ " " ++ "0 0 1") = ["1", "0", "1", "0", "0", "1"] from by decide]
    exact parseAll_boxId)]
  exact decodeBody_eval_nored pfQ cpc0 _ _ ⟨["bohr"], [(⟨Bohr, 0, 0⟩, "C")]⟩ (msmul Bohr mId)
    scan_bohr_before (by decide) cellId_eval (by decide)

theorem decode_fileKwAfter :
    decodeLines pfQ cpc0 fileKwAfter =
      .ok ⟨msmul Bohr mId, [(⟨1, 0, 0⟩, "C")], (false, false, false)⟩ := by
  show decodeLines pfQ cpc0
    ("sample" :: "1 0 1" :: "0 0 1" :: ["1 0 0 C", "#keyword: bohr"]) = _
  rw [decodeLines_expand pfQ cpc0 "sample" "1 0 1" "0 0 1" _ [1, 0, 1, 0, 0, 1] (by
    rw [show splitWS ("1 0 1" ++ " " ++ "0 0 1") = ["1", "0", "1", "0", "0", "1"] from by decide]
    exact parseAll_boxId)]
  exact decodeBody_eval_nored pfQ cpc0 _ _ ⟨["bohr"], [(⟨1, 0, 0⟩, "C")]⟩ (msmul Bohr mId)
    scan_node_then_bohr (by decide) cellId_eval (by decide)

theorem decode_fileFreeBC :
    decodeLines pfQ cpc0 fileFreeBC =
      .ok ⟨mId, [(⟨1, 0, 0⟩, "C")], (false, false, false)⟩ := by
  show decodeLines pfQ cpc0
    ("sample" :: "1 0 1" :: "0 0 1" :: ["#keyword: freeBC", "1 0 0 C"]) = _
  rw [decodeLines_expand pfQ cpc0 "sample" "1 0 1" "0 0 1" _ [1, 0, 1, 0, 0, 1] (by
    rw [show splitWS ("1 0 1" ++ " " ++ "0 0 1") = ["1", "0", "1", "0", "0", "1"] from by decide]
    exact parseAll_boxId)]
  exact decodeBody_eval_nored pfQ cpc0 _ _ ⟨["freebc"], [(⟨1, 0, 0⟩, "C")]⟩ mId
    scan_freebc (by decide) (cellId_eval_nobohr ["freebc"] (by decide) (by decide)) (by decide)

theorem decode_fileSurfaceBad :
    decodeLines pfQ cpc0 fileSurfaceBad = .error .MalformedInput := by
  show decodeLines pfQ cpc0
    ("sample" :: "1 0 1" :: "0 0 1" :: ["#keyword: surface", "a b c D"]) = _
  rw [decodeLines_expand pfQ cpc0 "sample" "1 0 1" "0 0 1" _ [1, 0, 1, 0, 0, 1] (by
    rw [show splitWS ("1 0 1" ++ " " ++ "0 0 1") = ["1", "0", "1", "0", "0", "1"] from by decide]
    exact parseAll_boxId)]
  exact decodeBody_scan_err pfQ cpc0 _ _ _
    (scanBody_node_bad pfQ "a b c D" "a" "b" "c" "D" [] (by decide) (by decide)
      (Or.inl (by decide)) _ ⟨[], []⟩ (by decide))

theorem decode_fileIndentKw :
    decodeLines pfQ cpc0 fileIndentKw =
      .ok ⟨⟨⟨2, 0, 0⟩, ⟨0, 2, 0⟩, ⟨0, 0, 2⟩⟩, [(⟨1/2, 0, 0⟩, "X")], (false, false, false)⟩ := by
  show decodeLines pfQ cpc0
    ("sample" :: "2 0 2" :: "0 0 2" :: ["#  keyword: reduced", "1/2 0 0 X"]) = _
  rw [decodeLines_expand pfQ cpc0 "sample" "2 0 2" "0 0 2" _ [2, 0, 2, 0, 0, 2] (by
    rw [show splitWS ("2 0 2" ++ " " ++ "0 0 2") = ["2", "0", "2", "0", "0", "2"] from by decide]
    exact parseAll_boxTwo)]
  refine decodeBody_eval_nored pfQ cpc0 _ _ ⟨[], [(⟨1/2, 0, 0⟩, "X")]⟩
    ⟨⟨2, 0, 0⟩, ⟨0, 2, 0⟩, ⟨0, 0, 2⟩⟩ scan_indent_kw (by decide) ?_ (by decide)
  rw [cellFromKeywords_noang cpc0 _ [2, 0, 2, 0, 0, 2] ⟨⟨2, 0, 0⟩, ⟨0, 2, 0⟩, ⟨0, 0, 2⟩⟩
    (by decide) rfl]
  rw [if_neg (by decide), msmul_one]

/-! ## Printer and parser round-trip

The concrete formatter `fmtQ` is injectively parsed back by `pfQ` on all
of `ℚ`, and its output is always a well-formed number token.  These two
facts discharge the codec hypotheses of the round-trip claim. -/

theorem digitsVal_append (a b : List Char) : ∀ acc, digitsVal (a ++ b) acc =
    match digitsVal a acc with
    | some m => digitsVal b m
    | none => none := by
  induction a with
  | nil => intro acc; rfl
  | cons c cs ih =>
    intro acc
    show (match digitVal c with
      | some d => digitsVal (cs ++ b) (10 * acc + d)
      | none => none) =
      match (match digitVal c with
        | some d => digitsVal cs (10 * acc + d)
        | none => (none : Option ℕ)) with
      | some m => digitsVal b m
      | none => none
    cases digitVal c with
    | some d => exact ih (10 * acc + d)
    | none => rfl

theorem natDigitsAux_step (fuel n : ℕ) (h0 : ¬ n = 0) :
    natDigitsAux (fuel + 1) n = natDigitsAux fuel (n / 10) ++ [Char.ofNat (48 + n % 10)] := by
  show (if n = 0 then [] else natDigitsAux fuel (n / 10) ++ [Char.ofNat (48 + n % 10)]) = _
  rw [if_neg h0]

theorem digitVal_ofNat (r : ℕ) (hr : r < 10) :
    digitVal (Char.ofNat (48 + r)) = some r := by
  unfold digitVal
  have ht : (Char.ofNat (48 + r)).toNat = 48 + r :=
    char_toNat_ofNat _ (isValidChar_small _ (by omega))
  rw [ht, if_pos (by omega)]
  congr 1
  omega

theorem natDigitsAux_val : ∀ (fuel n : ℕ), n ≤ fuel →
    ∀ acc, digitsVal (natDigitsAux fuel n) acc =
      some (acc * 10 ^ (natDigitsAux fuel n).length + n) := by
  intro fuel
  induction fuel with
  | zero =>
    intro n hn acc
    have h0 : n = 0 := Nat.le_zero.mp hn
    subst h0
    simp [natDigitsAux, digitsVal]
  | succ fuel ih =>
    intro n hn acc
    by_cases h0 : n = 0
    · subst h0
      simp [natDigitsAux, digitsVal]
    · rw [natDigitsAux_step fuel n h0, digitsVal_append]
      have hdiv : n / 10 ≤ fuel := by
        have := Nat.div_lt_self (Nat.pos_of_ne_zero h0) (by norm_num : 1 < 10)
        omega
      rw [ih (n / 10) hdiv acc]
      show digitsVal [Char.ofNat (48 + n % 10)]
        (acc * 10 ^ (natDigitsAux fuel (n / 10)).length + n / 10) = _
      show (match digitVal (Char.ofNat (48 + n % 10)) with
        | some d => digitsVal []
            (10 * (acc * 10 ^ (natDigitsAux fuel (n / 10)).length + n / 10) + d)
        | none => none) = _
      rw [digitVal_ofNat (n % 10) (Nat.mod_lt _ (by norm_num))]
      show some (10 * (acc * 10 ^ (natDigitsAux fuel (n / 10)).length + n / 10) + n % 10) = _
      congr 1
      rw [List.length_append, List.length_singleton, pow_succ]
      have hmod := Nat.div_add_mod n 10
      calc 10 * (acc * 10 ^ (natDigitsAux fuel (n / 10)).length + n / 10) + n % 10
          = acc * (10 ^ (natDigitsAux fuel (n / 10)).length * 10) +
            (10 * (n / 10) + n % 10) := by ring
        _ = acc * (10 ^ (natDigitsAux fuel (n / 10)).length * 10) + n := by rw [hmod]

theorem natDigitsAux_chars : ∀ (fuel n : ℕ), ∀ c ∈ natDigitsAux fuel n,
    48 ≤ c.toNat ∧ c.toNat ≤ 57 := by
  intro fuel
  induction fuel with
  | zero => intro n c hc; simp [natDigitsAux] at hc
  | succ fuel ih =>
    intro n c hc
    by_cases h0 : n = 0
    · subst h0; simp [natDigitsAux] at hc
    · rw [natDigitsAux_step fuel n h0] at hc
      rcases List.mem_append.mp hc with hc | hc
      · exact ih (n / 10) c hc
      · rw [List.mem_singleton] at hc
        subst hc
        have ht : (Char.ofNat (48 + n % 10)).toNat = 48 + n % 10 :=
          char_toNat_ofNat _ (isValidChar_small _ (by omega))
        rw [ht]
        have := Nat.mod_lt n (show 0 < 10 by norm_num)
        omega

theorem natDigits_val (n : ℕ) : digitsVal (natDigits n) 0 = some n := by
  unfold natDigits
  by_cases h0 : n = 0
  · rw [if_pos h0, h0]
    decide
  · rw [if_neg h0, natDigitsAux_val (n + 1) n (by omega) 0]
    simp

theorem natDigits_chars (n : ℕ) : ∀ c ∈ natDigits n, 48 ≤ c.toNat ∧ c.toNat ≤ 57 := by
  unfold natDigits
  by_cases h0 : n = 0
  · rw [if_pos h0]
    intro c hc
    simp at hc
    subst hc
    decide
  · rw [if_neg h0]
    exact natDigitsAux_chars (n + 1) n

theorem natDigits_ne_nil (n : ℕ) : natDigits n ≠ [] := by
  unfold natDigits
  by_cases h0 : n = 0
  · rw [if_pos h0]; simp
  · rw [if_neg h0]
    simp only [natDigitsAux, if_neg h0]
    simp

theorem digitVal_isSome (c : Char) (h1 : 48 ≤ c.toNat) (h2 : c.toNat ≤ 57) :
    (digitVal c).isSome = true := by
  unfold digitVal
  rw [if_pos ⟨h1, h2⟩]
  rfl

theorem takeWhile_all {p : Char → Bool} :
    ∀ l : List Char, (∀ c ∈ l, p c = true) → l.takeWhile p = l := by
  intro l
  induction l with
  | nil => intro _; rfl
  | cons c cs ih =>
    intro h
    rw [List.takeWhile_cons, if_pos (h c (by simp))]
    rw [ih (fun d hd => h d (by simp [hd]))]

theorem takeWhile_append_stop {p : Char → Bool} :
    ∀ (a : List Char) (c : Char) (b : List Char),
      (∀ x ∈ a, p x = true) → p c = false → ((a ++ c :: b).takeWhile p) = a := by
  intro a
  induction a with
  | nil =>
    intro c b _ hc
    rw [List.nil_append, List.takeWhile_cons, if_neg (by simp [hc])]
  | cons x xs ih =>
    intro c b ha hc
    rw [List.cons_append, List.takeWhile_cons, if_pos (ha x (by simp))]
    rw [ih c b (fun y hy => ha y (by simp [hy])) hc]

theorem charNe_of_toNat (c d : Char) (h : c.toNat ≠ d.toNat) : c ≠ d := by
  intro he
  rw [he] at h
  exact h rfl

theorem wsChar_false_of_toNat (c : Char) (h32 : c.toNat ≠ 32) (h9 : c.toNat ≠ 9)
    (h10 : c.toNat ≠ 10) (h13 : c.toNat ≠ 13) : wsChar c = false := by
  unfold wsChar
  rw [decide_eq_false (charNe_of_toNat c ' ' h32),
    decide_eq_false (charNe_of_toNat c '\t' h9),
    decide_eq_false (charNe_of_toNat c '\n' h10),
    decide_eq_false (charNe_of_toNat c '\r' h13)]
  rfl

theorem drop_len_append (a b : List Char) : (a ++ b).drop a.length = b := by
  induction a with
  | nil => rfl
  | cons c cs ih => simp [ih]

theorem fmtQ_eval (q : ℚ) : fmtQ q =
    if q.den = 1 then
      String.mk ((if q.num < 0 then ['-'] else []) ++ natDigits q.num.natAbs)
    else
      String.mk ((if q.num < 0 then ['-'] else []) ++
        (natDigits q.num.natAbs ++ '/' :: natDigits q.den)) := rfl

theorem pfQ_mk (l : List Char) : pfQ (String.mk l) =
    pfQParseTail (if l.head? = some '-' then -1 else 1)
      ((if l.head? = some '-' ∨ l.head? = some '+' then l.tail else l).takeWhile
        (fun c => (digitVal c).isSome))
      ((if l.head? = some '-' ∨ l.head? = some '+' then l.tail else l).drop
        ((if l.head? = some '-' ∨ l.head? = some '+' then l.tail else l).takeWhile
          (fun c => (digitVal c).isSome)).length) := rfl

theorem pfQParseTail_int (sg : ℚ) (n : ℕ) :
    pfQParseTail sg (natDigits n) [] = some (sg * (n : ℚ)) := by
  show (if natDigits n = [] then none
      else match digitsVal (natDigits n) 0 with
        | some m => some (sg * (m : ℚ))
        | none => none) = some (sg * (n : ℚ))
  rw [if_neg (natDigits_ne_nil n), natDigits_val]

theorem pfQParseTail_slash (sg : ℚ) (n d : ℕ) (hd : ¬ d = 0) :
    pfQParseTail sg (natDigits n) ('/' :: natDigits d) = some (sg * (n : ℚ) / (d : ℚ)) := by
  show (if natDigits n = [] ∨ natDigits d = [] then none
      else match digitsVal (natDigits n) 0, digitsVal (natDigits d) 0 with
        | some m, some e => if e = 0 then none else some (sg * (m : ℚ) / (e : ℚ))
        | _, _ => none) = some (sg * (n : ℚ) / (d : ℚ))
  rw [if_neg (by push_neg; exact ⟨natDigits_ne_nil n, natDigits_ne_nil d⟩),
    natDigits_val, natDigits_val]
  show (if d = 0 then none else some (sg * (n : ℚ) / (d : ℚ))) = some (sg * (n : ℚ) / (d : ℚ))
  rw [if_neg hd]

theorem head_digit_of_digits (l : List Char) (hl : ∀ x ∈ l, 48 ≤ x.toNat) (ch : Char)
    (h : l.head? = some ch) : 48 ≤ ch.toNat := by
  cases l with
  | nil => exact absurd h (by simp)
  | cons c cs =>
    rw [List.head?_cons] at h
    rw [← Option.some.inj h]
    exact hl c (List.mem_cons_self c cs)

theorem natDigits_head_not_sign (m : ℕ) :
    ¬ (natDigits m).head? = some '-' ∧ ¬ (natDigits m).head? = some '+' := by
  constructor <;> intro h
  · have h48 := head_digit_of_digits (natDigits m)
      (fun x hx => (natDigits_chars m x hx).1) '-' h
    exact absurd h48 (by decide)
  · have h48 := head_digit_of_digits (natDigits m)
      (fun x hx => (natDigits_chars m x hx).1) '+' h
    exact absurd h48 (by decide)

theorem natDigits_head_append (m : ℕ) (r : List Char) :
    (natDigits m ++ r).head? = (natDigits m).head? := by
  rcases List.exists_cons_of_ne_nil (natDigits_ne_nil m) with ⟨c, cs, hcs⟩
  rw [hcs, List.cons_append, List.head?_cons, List.head?_cons]

theorem fmtQ_chars (q : ℚ) : ∀ c ∈ (fmtQ q).data, 45 ≤ c.toNat ∧ c.toNat ≤ 57 := by
  intro c hc
  have hdig : ∀ m : ℕ, c ∈ natDigits m → 45 ≤ c.toNat ∧ c.toNat ≤ 57 := by
    intro m hm
    have h := natDigits_chars m c hm
    omega
  rw [fmtQ_eval] at hc
  by_cases hden : q.den = 1
  · rw [if_pos hden] at hc
    have hc2 : c ∈ (if q.num < 0 then ['-'] else []) ++ natDigits q.num.natAbs := hc
    rcases List.mem_append.mp hc2 with h | h
    · by_cases hneg : q.num < 0
      · rw [if_pos hneg, List.mem_singleton] at h
        subst h
        decide
      · rw [if_neg hneg] at h
        exact absurd h (List.not_mem_nil c)
    · exact hdig _ h
  · rw [if_neg hden] at hc
    have hc2 : c ∈ (if q.num < 0 then ['-'] else []) ++
        (natDigits q.num.natAbs ++ '/' :: natDigits q.den) := hc
    rcases List.mem_append.mp hc2 with h | h
    · by_cases hneg : q.num < 0
      · rw [if_pos hneg, List.mem_singleton] at h
        subst h
        decide
      · rw [if_neg hneg] at h
        exact absurd h (List.not_mem_nil c)
    · rcases List.mem_append.mp h with h2 | h2
      · exact hdig _ h2
      · rcases List.mem_cons.mp h2 with h3 | h3
        · subst h3
          decide
        · exact hdig _ h3

theorem fmtQ_ne_nil (q : ℚ) : (fmtQ q).data ≠ [] := by
  rw [fmtQ_eval]
  by_cases hden : q.den = 1
  · rw [if_pos hden]
    intro h
    have h2 : ((if q.num < 0 then ['-'] else []) ++ natDigits q.num.natAbs) = [] := h
    exact natDigits_ne_nil _ (List.append_eq_nil.mp h2).2
  · rw [if_neg hden]
    intro h
    have h2 : ((if q.num < 0 then ['-'] else []) ++
        (natDigits q.num.natAbs ++ '/' :: natDigits q.den)) = [] := h
    exact natDigits_ne_nil _ (List.append_eq_nil.mp (List.append_eq_nil.mp h2).2).1

theorem fmtQ_numTok (q : ℚ) : numTok (fmtQ q) := by
  unfold numTok
  refine ⟨fmtQ_ne_nil q, fun c hc => ?_, ?_, ?_⟩
  · have h := fmtQ_chars q c hc
    exact wsChar_false_of_toNat c (by omega) (by omega) (by omega) (by omega)
  · intro h
    rcases List.exists_cons_of_ne_nil (fmtQ_ne_nil q) with ⟨c, cs, hcs⟩
    rw [hcs, List.head?_cons] at h
    have hm : c ∈ (fmtQ q).data := by rw [hcs]; exact List.mem_cons_self c cs
    have h45 := (fmtQ_chars q c hm).1
    rw [Option.some.inj h] at h45
    exact absurd h45 (by decide)
  · intro h
    rcases List.exists_cons_of_ne_nil (fmtQ_ne_nil q) with ⟨c, cs, hcs⟩
    rw [hcs, List.head?_cons] at h
    have hm : c ∈ (fmtQ q).data := by rw [hcs]; exact List.mem_cons_self c cs
    have h45 := (fmtQ_chars q c hm).1
    rw [Option.some.inj h] at h45
    exact absurd h45 (by decide)

theorem pfQ_fmtQ (q : ℚ) : pfQ (fmtQ q) = some q := by
  have hdigall : ∀ m : ℕ, ∀ x ∈ natDigits m, (fun c => (digitVal c).isSome) x = true :=
    fun m x hx => digitVal_isSome x (natDigits_chars m x hx).1 (natDigits_chars m x hx).2
  have htwn : ∀ m : ℕ, (natDigits m).takeWhile (fun c => (digitVal c).isSome) = natDigits m :=
    fun m => takeWhile_all (natDigits m) (hdigall m)
  have hnum := Rat.num_div_den q
  by_cases hden : q.den = 1 <;> by_cases hneg : q.num < 0
  · have hfmt : fmtQ q = String.mk ('-' :: natDigits q.num.natAbs) := by
      rw [fmtQ_eval, if_pos hden, if_pos hneg]
      rfl
    rw [hfmt, pfQ_mk,
      if_pos (show ('-' :: natDigits q.num.natAbs).head? = some '-' from rfl),
      if_pos (Or.inl (show ('-' :: natDigits q.num.natAbs).head? = some '-' from rfl)),
      List.tail_cons, htwn, List.drop_length, pfQParseTail_int]
    have hcast : ((q.num.natAbs : ℕ) : ℚ) = -((q.num : ℤ) : ℚ) := by
      rw [Int.cast_natAbs, abs_of_neg hneg, Int.cast_neg]
    rw [hden] at hnum
    simp only [Nat.cast_one, div_one] at hnum
    rw [hcast, show (-1 : ℚ) * -((q.num : ℤ) : ℚ) = ((q.num : ℤ) : ℚ) from by ring, hnum]
  · have hfmt : fmtQ q = String.mk (natDigits q.num.natAbs) := by
      rw [fmtQ_eval, if_pos hden, if_neg hneg]
      rfl
    rw [hfmt, pfQ_mk,
      if_neg (natDigits_head_not_sign q.num.natAbs).1,
      if_neg (not_or.mpr ⟨(natDigits_head_not_sign q.num.natAbs).1,
        (natDigits_head_not_sign q.num.natAbs).2⟩),
      htwn, List.drop_length, pfQParseTail_int]
    have hcast : ((q.num.natAbs : ℕ) : ℚ) = ((q.num : ℤ) : ℚ) := by
      rw [Int.cast_natAbs, abs_of_nonneg (not_lt.mp hneg)]
    rw [hden] at hnum
    simp only [Nat.cast_one, div_one] at hnum
    rw [one_mul, hcast, hnum]
  · have htws : (natDigits q.num.natAbs ++ '/' :: natDigits q.den).takeWhile
        (fun c => (digitVal c).isSome) = natDigits q.num.natAbs :=
      takeWhile_append_stop (natDigits q.num.natAbs) '/' (natDigits q.den)
        (hdigall q.num.natAbs) (by decide)
    have hfmt : fmtQ q =
        String.mk ('-' :: (natDigits q.num.natAbs ++ '/' :: natDigits q.den)) := by
      rw [fmtQ_eval, if_neg hden, if_pos hneg]
      rfl
    rw [hfmt, pfQ_mk,
      if_pos (show ('-' :: (natDigits q.num.natAbs ++ '/' :: natDigits q.den)).head? =
        some '-' from rfl),
      if_pos (Or.inl
        (show ('-' :: (natDigits q.num.natAbs ++ '/' :: natDigits q.den)).head? =
          some '-' from rfl)),
      List.tail_cons, htws, drop_len_append, pfQParseTail_slash _ _ _ q.den_nz]
    have hcast : ((q.num.natAbs : ℕ) : ℚ) = -((q.num : ℤ) : ℚ) := by
      rw [Int.cast_natAbs, abs_of_neg hneg, Int.cast_neg]
    rw [hcast,
      show (-1 : ℚ) * -((q.num : ℤ) : ℚ) / ((q.den : ℕ) : ℚ) =
        ((q.num : ℤ) : ℚ) / ((q.den : ℕ) : ℚ) from by ring,
      hnum]
  · have htws : (natDigits q.num.natAbs ++ '/' :: natDigits q.den).takeWhile
        (fun c => (digitVal c).isSome) = natDigits q.num.natAbs :=
      takeWhile_append_stop (natDigits q.num.natAbs) '/' (natDigits q.den)
        (hdigall q.num.natAbs) (by decide)
    have hfmt : fmtQ q =
        String.mk (natDigits q.num.natAbs ++ '/' :: natDigits q.den) := by
      rw [fmtQ_eval, if_neg hden, if_neg hneg]
      rfl
    have hh1 : ¬ (natDigits q.num.natAbs ++ '/' :: natDigits q.den).head? = some '-' := by
      rw [natDigits_head_append]
      exact (natDigits_head_not_sign q.num.natAbs).1
    have hh2 : ¬ (natDigits q.num.natAbs ++ '/' :: natDigits q.den).head? = some '+' := by
      rw [natDigits_head_append]
      exact (natDigits_head_not_sign q.num.natAbs).2
    rw [hfmt, pfQ_mk, if_neg hh1, if_neg (not_or.mpr ⟨hh1, hh2⟩), htws, drop_len_append,
      pfQParseTail_slash _ _ _ q.den_nz]
    have hcast : ((q.num.natAbs : ℕ) : ℚ) = ((q.num : ℤ) : ℚ) := by
      rw [Int.cast_natAbs, abs_of_nonneg (not_lt.mp hneg)]
    rw [one_mul, hcast, hnum]

/-! ## Decoding the writer's output

The writer emits the title, two header lines with the six entries of the
triangularized cell, the `reduced` and `angstroem` keyword lines, one
periodicity keyword line, and one node line per atom with fractional
coordinates.  The lemmas below evaluate the reader on exactly that shape,
for any parse/format pair that round-trips the emitted numbers. -/

theorem vec3_ext (v w : Vec3) (hx : v.x = w.x) (hy : v.y = w.y) (hz : v.z = w.z) : v = w := by
  cases v; cases w
  rw [Vec3.mk.injEq]
  exact ⟨hx, hy, hz⟩

theorem mat3_ext (m n : Mat3) (h0 : m.r0 = n.r0) (h1 : m.r1 = n.r1) (h2 : m.r2 = n.r2) :
    m = n := by
  cases m; cases n
  rw [Mat3.mk.injEq]
  exact ⟨h0, h1, h2⟩

theorem lineUnit_of_reduced (kws : List String) (h : kws.contains "reduced" = true) :
    lineUnit kws = 1 := by
  unfold lineUnit
  rw [if_pos h]

theorem processBodyLine_kwred (pf : String → Option ℚ) (st : ScanState) :
    processBodyLine pf st "#keyword: reduced" = .ok ⟨st.keywords ++ ["reduced"], st.atoms⟩ := by
  rw [processBodyLine_comment pf st "#keyword: reduced" ("keyword: reduced".data) (by decide),
    show commentKeywords ("keyword: reduced".data) = ["reduced"] from by decide]

theorem processBodyLine_kwang (pf : String → Option ℚ) (st : ScanState) :
    processBodyLine pf st "#keyword: angstroem" =
      .ok ⟨st.keywords ++ ["angstroem"], st.atoms⟩ := by
  rw [processBodyLine_comment pf st "#keyword: angstroem" ("keyword: angstroem".data)
    (by decide),
    show commentKeywords ("keyword: angstroem".data) = ["angstroem"] from by decide]

theorem processBodyLine_kwper (pf : String → Option ℚ) (st : ScanState) :
    processBodyLine pf st "#keyword: periodic" = .ok ⟨st.keywords ++ ["periodic"], st.atoms⟩ := by
  rw [processBodyLine_comment pf st "#keyword: periodic" ("keyword: periodic".data) (by decide),
    show commentKeywords ("keyword: periodic".data) = ["periodic"] from by decide]

theorem processBodyLine_kwfree (pf : String → Option ℚ) (st : ScanState) :
    processBodyLine pf st "#keyword: freeBC" = .ok ⟨st.keywords ++ ["freebc"], st.atoms⟩ := by
  rw [processBodyLine_comment pf st "#keyword: freeBC" ("keyword: freeBC".data) (by decide),
    show commentKeywords ("keyword: freeBC".data) = ["freebc"] from by decide]

theorem processBodyLine_kwsurf (pf : String → Option ℚ) (st : ScanState) :
    processBodyLine pf st "#keyword: surface" = .ok ⟨st.keywords ++ ["surface"], st.atoms⟩ := by
  rw [processBodyLine_comment pf st "#keyword: surface" ("keyword: surface".data) (by decide),
    show commentKeywords ("keyword: surface".data) = ["surface"] from by decide]

theorem stripComment_atomLine (fmt : ℚ → String) (a : Vec3 × String)
    (hx : numTok (fmt a.1.x)) : stripComment (atomLine fmt a).data = none := by
  unfold atomLine
  rw [String.data_append, String.data_append, String.data_append, String.data_append,
    String.data_append, String.data_append, List.append_assoc, List.append_assoc,
    List.append_assoc, List.append_assoc, List.append_assoc]
  exact stripComment_numTok (fmt a.1.x) _ hx

theorem scanAtomLines (pf : String → Option ℚ) (fmt : ℚ → String) (kws : List String)
    (hred : kws.contains "reduced" = true) (ats : List (Vec3 × String)) :
    (∀ a ∈ ats, (pf (fmt a.1.x) = some a.1.x ∧ numTok (fmt a.1.x)) ∧
      (pf (fmt a.1.y) = some a.1.y ∧ numTok (fmt a.1.y)) ∧
      (pf (fmt a.1.z) = some a.1.z ∧ numTok (fmt a.1.z))) →
    (∀ a ∈ ats, symTok a.2) →
    ∀ acc, scanBody pf ⟨kws, acc⟩ (ats.map (atomLine fmt)) = .ok ⟨kws, acc ++ ats⟩ := by
  induction ats with
  | nil =>
    intro _ _ acc
    show Except.ok (⟨kws, acc⟩ : ScanState) = _
    rw [List.append_nil]
  | cons a ats ih =>
    intro hnum hsym acc
    have hna := hnum a (List.mem_cons_self a ats)
    have hsa := hsym a (List.mem_cons_self a ats)
    have hsc : stripComment (atomLine fmt a).data = none := stripComment_atomLine fmt a hna.1.2
    have hsplit : splitWS (atomLine fmt a) = [fmt a.1.x, fmt a.1.y, fmt a.1.z, a.2] := by
      unfold atomLine
      rw [splitWS_append_space, splitWS_append_space, splitWS_append_space,
        splitWS_single _ hna.1.2.1 hna.1.2.2.1, splitWS_single _ hna.2.1.2.1 hna.2.1.2.2.1,
        splitWS_single _ hna.2.2.2.1 hna.2.2.2.2.1, splitWS_single _ hsa.1 hsa.2]
      rfl
    have hpb : processBodyLine pf ⟨kws, acc⟩ (atomLine fmt a) = .ok ⟨kws, acc ++ [a]⟩ := by
      rw [processBodyLine_node pf ⟨kws, acc⟩ (atomLine fmt a) (fmt a.1.x) (fmt a.1.y)
        (fmt a.1.z) a.2 [] a.1.x a.1.y a.1.z hsc hsplit hna.1.1 hna.2.1.1 hna.2.2.1]
      show Except.ok (⟨kws, acc ++ [(⟨lineUnit kws * a.1.x, lineUnit kws * a.1.y,
        lineUnit kws * a.1.z⟩, a.2)]⟩ : ScanState) = _
      rw [lineUnit_of_reduced kws hred, one_mul, one_mul, one_mul]
    rw [List.map_cons, scanBody_cons_ok pf ⟨kws, acc⟩ _ _ ⟨kws, acc ++ [a]⟩ hpb,
      ih (fun b hb => hnum b (List.mem_cons_of_mem a hb))
        (fun b hb => hsym b (List.mem_cons_of_mem a hb)) (acc ++ [a]),
      List.append_assoc]
    rfl

theorem encode_body_scan (pf : String → Option ℚ) (fmt : ℚ → String)
    (fats : List (Vec3 × String)) (kline ktok : String)
    (hkl : ∀ st : ScanState, processBodyLine pf st kline = .ok ⟨st.keywords ++ [ktok], st.atoms⟩)
    (hnumA : ∀ a ∈ fats, (pf (fmt a.1.x) = some a.1.x ∧ numTok (fmt a.1.x)) ∧
      (pf (fmt a.1.y) = some a.1.y ∧ numTok (fmt a.1.y)) ∧
      (pf (fmt a.1.z) = some a.1.z ∧ numTok (fmt a.1.z)))
    (hsymA : ∀ a ∈ fats, symTok a.2) :
    scanBody pf ⟨[], []⟩ ("#keyword: reduced" :: "#keyword: angstroem" :: kline ::
      fats.map (atomLine fmt)) = .ok ⟨["reduced", "angstroem", ktok], fats⟩ := by
  rw [scanBody_cons_ok pf ⟨[], []⟩ _ _ ⟨["reduced"], []⟩ (processBodyLine_kwred pf ⟨[], []⟩),
    scanBody_cons_ok pf ⟨["reduced"], []⟩ _ _ ⟨["reduced", "angstroem"], []⟩
      (processBodyLine_kwang pf ⟨["reduced"], []⟩),
    scanBody_cons_ok pf ⟨["reduced", "angstroem"], []⟩ _ _ ⟨["reduced", "angstroem", ktok], []⟩
      (hkl ⟨["reduced", "angstroem"], []⟩),
    scanAtomLines pf fmt ["reduced", "angstroem", ktok] rfl fats hnumA hsymA []]
  rfl

theorem encode_header_parse (pf : String → Option ℚ) (fmt : ℚ → String) (c : Mat3)
    (hnum6 : ∀ q ∈ [c.r0.x, c.r1.x, c.r1.y, c.r2.x, c.r2.y, c.r2.z],
      pf (fmt q) = some q ∧ numTok (fmt q)) :
    parseAll pf (splitWS ((fmt c.r0.x ++ " " ++ fmt c.r1.x ++ " " ++ fmt c.r1.y) ++ " " ++
      (fmt c.r2.x ++ " " ++ fmt c.r2.y ++ " " ++ fmt c.r2.z))) =
      .ok [c.r0.x, c.r1.x, c.r1.y, c.r2.x, c.r2.y, c.r2.z] := by
  have h1 := hnum6 c.r0.x (by simp)
  have h2 := hnum6 c.r1.x (by simp)
  have h3 := hnum6 c.r1.y (by simp)
  have h4 := hnum6 c.r2.x (by simp)
  have h5 := hnum6 c.r2.y (by simp)
  have h6 := hnum6 c.r2.z (by simp)
  rw [splitWS_append_space, splitWS_append_space, splitWS_append_space, splitWS_append_space,
    splitWS_append_space, splitWS_single _ h1.2.1 h1.2.2.1, splitWS_single _ h2.2.1 h2.2.2.1,
    splitWS_single _ h3.2.1 h3.2.2.1, splitWS_single _ h4.2.1 h4.2.2.1,
    splitWS_single _ h5.2.1 h5.2.2.1, splitWS_single _ h6.2.1 h6.2.2.1]
  exact parseAll_all_some pf _ _ (List.Forall₂.cons h1.1 (List.Forall₂.cons h2.1
    (List.Forall₂.cons h3.1 (List.Forall₂.cons h4.1 (List.Forall₂.cons h5.1
      (List.Forall₂.cons h6.1 List.Forall₂.nil))))))

theorem map_frac_cancel (c : Mat3) (hdet : det3 c ≠ 0) (ats : List (Vec3 × String)) :
    (fracPositions c ats).map (fun a => (vecMul a.1 c, a.2)) = ats := by
  unfold fracPositions
  rw [List.map_map]
  induction ats with
  | nil => rfl
  | cons a ats ih =>
    rw [List.map_cons, ih]
    show ((vecMul (vecMul a.1 (inv3 c)) c, a.2) :: ats) = a :: ats
    rw [vecMul_inv3_cancel c hdet a.1]

theorem decode_encode_core (pf : String → Option ℚ) (fmt : ℚ → String)
    (cpc : List ℚ → Mat3) (c : Mat3) (ats : List (Vec3 × String)) (kline ktok : String)
    (hkl : ∀ st : ScanState, processBodyLine pf st kline = .ok ⟨st.keywords ++ [ktok], st.atoms⟩)
    (hsurf : ((["reduced", "angstroem", ktok] : List String).contains "surface" ||
      (["reduced", "angstroem", ktok] : List String).contains "freeBC") = false)
    (hang : (["reduced", "angstroem", ktok] : List String).contains "angdeg" = false)
    (hbohr : bohrFamily ["reduced", "angstroem", ktok] = false)
    (hnum : ∀ q ∈ [c.r0.x, c.r1.x, c.r1.y, c.r2.x, c.r2.y, c.r2.z] ++
        (fracPositions c ats).flatMap (fun a => [a.1.x, a.1.y, a.1.z]),
      pf (fmt q) = some q ∧ numTok (fmt q))
    (hsym : ∀ a ∈ ats, symTok a.2)
    (htri : c.r0.y = 0 ∧ c.r0.z = 0 ∧ c.r1.z = 0)
    (hdet : det3 c ≠ 0) :
    decodeLines pf cpc
      (encPre fmt c ++ [kline] ++ (fracPositions c ats).map (atomLine fmt)) =
      .ok ⟨c, ats, (false, false, false)⟩ := by
  have hnum6 : ∀ q ∈ [c.r0.x, c.r1.x, c.r1.y, c.r2.x, c.r2.y, c.r2.z],
      pf (fmt q) = some q ∧ numTok (fmt q) :=
    fun q hq => hnum q (List.mem_append.mpr (Or.inl hq))
  have hnumA : ∀ a ∈ fracPositions c ats,
      (pf (fmt a.1.x) = some a.1.x ∧ numTok (fmt a.1.x)) ∧
      (pf (fmt a.1.y) = some a.1.y ∧ numTok (fmt a.1.y)) ∧
      (pf (fmt a.1.z) = some a.1.z ∧ numTok (fmt a.1.z)) := by
    intro a ha
    refine ⟨hnum _ ?_, hnum _ ?_, hnum _ ?_⟩ <;>
      exact List.mem_append.mpr (Or.inr (List.mem_flatMap.mpr ⟨a, ha, by simp⟩))
  have hsymA : ∀ a ∈ fracPositions c ats, symTok a.2 := by
    intro a ha
    unfold fracPositions at ha
    obtain ⟨b, hb, rfl⟩ := List.mem_map.mp ha
    exact hsym b hb
  have hMc : (⟨⟨c.r0.x, 0, 0⟩, ⟨c.r1.x, c.r1.y, 0⟩, ⟨c.r2.x, c.r2.y, c.r2.z⟩⟩ : Mat3) = c :=
    mat3_ext _ _ (vec3_ext _ _ rfl htri.1.symm htri.2.1.symm)
      (vec3_ext _ _ rfl rfl htri.2.2.symm) (vec3_ext _ _ rfl rfl rfl)
  have hb' : ¬ bohrFamily ["reduced", "angstroem", ktok] = true := by rw [hbohr]; decide
  have hcell : cellFromKeywords cpc ["reduced", "angstroem", ktok]
      [c.r0.x, c.r1.x, c.r1.y, c.r2.x, c.r2.y, c.r2.z] = .ok c := by
    rw [cellFromKeywords_noang cpc ["reduced", "angstroem", ktok]
      [c.r0.x, c.r1.x, c.r1.y, c.r2.x, c.r2.y, c.r2.z]
      ⟨⟨c.r0.x, 0, 0⟩, ⟨c.r1.x, c.r1.y, 0⟩, ⟨c.r2.x, c.r2.y, c.r2.z⟩⟩ hang rfl,
      if_neg hb', msmul_one, hMc]
  rw [show encPre fmt c ++ [kline] ++ (fracPositions c ats).map (atomLine fmt) =
      titleLine :: (fmt c.r0.x ++ " " ++ fmt c.r1.x ++ " " ++ fmt c.r1.y) ::
      (fmt c.r2.x ++ " " ++ fmt c.r2.y ++ " " ++ fmt c.r2.z) ::
      ("#keyword: reduced" :: "#keyword: angstroem" :: kline ::
        (fracPositions c ats).map (atomLine fmt)) from rfl,
    decodeLines_expand pf cpc _ _ _ _ _ (encode_header_parse pf fmt c hnum6),
    decodeBody_eval_red pf cpc _ _ ⟨["reduced", "angstroem", ktok], fracPositions c ats⟩ c
      (encode_body_scan pf fmt (fracPositions c ats) kline ktok hkl hnumA hsymA) hsurf hcell rfl,
    map_frac_cancel c hdet ats]

theorem decode_encode_surface (pf : String → Option ℚ) (fmt : ℚ → String)
    (cpc : List ℚ → Mat3) (c : Mat3) (ats : List (Vec3 × String)) (kline ktok : String)
    (hkl : ∀ st : ScanState, processBodyLine pf st kline = .ok ⟨st.keywords ++ [ktok], st.atoms⟩)
    (hsurf : ((["reduced", "angstroem", ktok] : List String).contains "surface" ||
      (["reduced", "angstroem", ktok] : List String).contains "freeBC") = true)
    (hnum : ∀ q ∈ [c.r0.x, c.r1.x, c.r1.y, c.r2.x, c.r2.y, c.r2.z] ++
        (fracPositions c ats).flatMap (fun a => [a.1.x, a.1.y, a.1.z]),
      pf (fmt q) = some q ∧ numTok (fmt q))
    (hsym : ∀ a ∈ ats, symTok a.2) :
    decodeLines pf cpc
      (encPre fmt c ++ [kline] ++ (fracPositions c ats).map (atomLine fmt)) =
      .error .UnsupportedFeature := by
  have hnum6 : ∀ q ∈ [c.r0.x, c.r1.x, c.r1.y, c.r2.x, c.r2.y, c.r2.z],
      pf (fmt q) = some q ∧ numTok (fmt q) :=
    fun q hq => hnum q (List.mem_append.mpr (Or.inl hq))
  have hnumA : ∀ a ∈ fracPositions c ats,
      (pf (fmt a.1.x) = some a.1.x ∧ numTok (fmt a.1.x)) ∧
      (pf (fmt a.1.y) = some a.1.y ∧ numTok (fmt a.1.y)) ∧
      (pf (fmt a.1.z) = some a.1.z ∧ numTok (fmt a.1.z)) := by
    intro a ha
    refine ⟨hnum _ ?_, hnum _ ?_, hnum _ ?_⟩ <;>
      exact List.mem_append.mpr (Or.inr (List.mem_flatMap.mpr ⟨a, ha, by simp⟩))
  have hsymA : ∀ a ∈ fracPositions c ats, symTok a.2 := by
    intro a ha
    unfold fracPositions at ha
    obtain ⟨b, hb, rfl⟩ := List.mem_map.mp ha
    exact hsym b hb
  rw [show encPre fmt c ++ [kline] ++ (fracPositions c ats).map (atomLine fmt) =
      titleLine :: (fmt c.r0.x ++ " " ++ fmt c.r1.x ++ " " ++ fmt c.r1.y) ::
      (fmt c.r2.x ++ " " ++ fmt c.r2.y ++ " " ++ fmt c.r2.z) ::
      ("#keyword: reduced" :: "#keyword: angstroem" :: kline ::
        (fracPositions c ats).map (atomLine fmt)) from rfl,
    decodeLines_expand pf cpc _ _ _ _ _ (encode_header_parse pf fmt c hnum6)]
  exact decodeBody_eval_surface pf cpc _ _ ⟨["reduced", "angstroem", ktok], fracPositions c ats⟩
    (encode_body_scan pf fmt (fracPositions c ats) kline ktok hkl hnumA hsymA) hsurf

/-! ## Claim C3 -/

/-- C3 (counterexample): the source does not trim whitespace between the
comment marker and `keyword:`; the line `'#  keyword: reduced'`, whose
trimmed body begins with `keyword:`, contributes no keyword tokens, so a
file using it decodes its node line as absolute unreduced coordinates. -/
theorem C3_counterexample :
    processBodyLine pfQ ⟨[], []⟩ "#  keyword: reduced" = .ok ⟨[], []⟩ ∧
    addedKeywords "#  keyword: reduced" = [] ∧
    addedKeywords "#keyword: reduced" = ["reduced"] ∧
    decodeLines pfQ cpc0 fileIndentKw =
      .ok ⟨⟨⟨2, 0, 0⟩, ⟨0, 2, 0⟩, ⟨0, 0, 2⟩⟩, [(⟨1/2, 0, 0⟩, "X")], (false, false, false)⟩ ∧
    vecMul ⟨1/2, 0, 0⟩ ⟨⟨2, 0, 0⟩, ⟨0, 2, 0⟩, ⟨0, 0, 2⟩⟩ ≠ (⟨1/2, 0, 0⟩ : Vec3) := by
  refine ⟨by decide, by decide, by decide, decode_fileIndentKw, ?_⟩
  intro h
  have h2 := congrArg Vec3.x h
  simp only [vecMul] at h2
  norm_num at h2

/-- C3 (amended): a comment line contributes keyword tokens exactly when
the body immediately after the marker — with no whitespace trimming,
after commas are turned into spaces and the body is lowercased — begins
with the literal `keyword:`; the contributed tokens are whitespace-free
and already comma-normalized and lowercased. -/
theorem C3_amended (pf : String → Option ℚ) (st : ScanState) (line : String)
    (rest : List Char) (h : stripComment line.data = some rest) :
    processBodyLine pf st line = .ok ⟨st.keywords ++ addedKeywords line, st.atoms⟩ ∧
    (addedKeywords line =
      if (rest.map normChar).take 8 = "keyword:".data
      then (splitWSAux ((rest.map normChar).drop 8) []).map String.mk
      else []) ∧
    ∀ tok ∈ addedKeywords line, ∀ c ∈ tok.data, normChar c = c ∧ wsChar c = false := by
  refine ⟨?_, ?_, ?_⟩
  · rw [processBodyLine_comment pf st line rest h, addedKeywords_comment line rest h]
  · rw [addedKeywords_comment line rest h]
    rfl
  · rw [addedKeywords_comment line rest h]
    intro tok htok c hc
    obtain ⟨⟨c', hc'⟩, hws⟩ := commentKeywords_mem_chars rest tok htok c hc
    exact ⟨by rw [hc', normChar_norm], hws⟩

/-- C3 (witness): the amended theorem applied to the line
`'#keyword: Bohr,angdeg'`. -/
theorem C3_witness :
    processBodyLine pfQ ⟨[], []⟩ "#keyword: Bohr,angdeg" =
      .ok ⟨[] ++ addedKeywords "#keyword: Bohr,angdeg", []⟩ ∧
    addedKeywords "#keyword: Bohr,angdeg" = ["bohr", "angdeg"] := by
  constructor
  · exact (C3_amended pfQ ⟨[], []⟩ "#keyword: Bohr,angdeg"
      ("keyword: Bohr,angdeg".data) (by decide)).1
  · decide

/-! ## Claim C4 -/

/-- C4 (counterexample): with a `surface` keyword collected and a later
malformed node line, decode fails with `MalformedInput`, not
`UnsupportedFeature`; and a file declaring `freeBC` decodes successfully
(the keyword is collected lowercased as `freebc`, so the mixed-case
`"freeBC"` membership test never succeeds). -/
theorem C4_counterexample :
    decodeLines pfQ cpc0 fileSurfaceBad = .error .MalformedInput ∧
    addedKeywords "#keyword: surface" = ["surface"] ∧
    decodeLines pfQ cpc0 fileFreeBC =
      .ok ⟨mId, [(⟨1, 0, 0⟩, "C")], (false, false, false)⟩ ∧
    addedKeywords "#keyword: freeBC" = ["freebc"] ∧
    VErr.MalformedInput ≠ VErr.UnsupportedFeature :=
  ⟨decode_fileSurfaceBad, by decide, decode_fileFreeBC, by decide, by decide⟩

/-- C4 (amended): decode raises `UnsupportedFeature` iff the header
parses, the body scan completes, and the collected keyword list contains
`surface` or the literal mixed-case `freeBC`; moreover no line ever
contributes the literal `freeBC` (keywords are lowercased on
collection), so only `surface` can actually trigger the error. -/
theorem C4_amended :
    (∀ (pf : String → Option ℚ) (cpc : List ℚ → Mat3) (lines : List String),
      decodeLines pf cpc lines = .error .UnsupportedFeature ↔
        ∃ box st,
          parseAll pf (splitWS (lines.getD 1 "" ++ " " ++ lines.getD 2 "")) = .ok box ∧
          scanBody pf ⟨[], []⟩ (lines.drop 3) = .ok st ∧
          (st.keywords.contains "surface" || st.keywords.contains "freeBC") = true) ∧
    ∀ line : String, "freeBC" ∉ addedKeywords line := by
  constructor
  · intro pf cpc lines
    constructor
    · intro h
      cases hbox : parseAll pf (splitWS (lines.getD 1 "" ++ " " ++ lines.getD 2 "")) with
      | error e =>
        rw [decodeLines_header_err pf cpc lines e hbox] at h
        injection h with h2
        rw [parseAll_error_eq pf _ e hbox] at h2
        exact VErr.noConfusion h2
      | ok box =>
        have hd : decodeLines pf cpc lines = decodeBody pf cpc box (lines.drop 3) := by
          unfold decodeLines
          rw [hbox]
        rw [hd] at h
        cases hst : scanBody pf ⟨[], []⟩ (lines.drop 3) with
        | error e =>
          rw [decodeBody_scan_err pf cpc box _ e hst] at h
          injection h with h2
          rw [scanBody_error_eq pf _ _ _ hst] at h2
          exact VErr.noConfusion h2
        | ok st =>
          by_cases hk : (st.keywords.contains "surface" || st.keywords.contains "freeBC") = true
          · exact ⟨box, st, rfl, rfl, hk⟩
          · by_cases hred : st.keywords.contains "reduced" = true
            · cases hc : cellFromKeywords cpc st.keywords box with
              | error e =>
                rw [decodeBody_expand_err pf cpc box _ st e hst (by simpa using hk) hc] at h
                injection h with h2
                rw [cellFromKeywords_error_eq cpc _ _ e hc] at h2
                exact VErr.noConfusion h2
              | ok cell =>
                rw [decodeBody_eval_red pf cpc box _ st cell hst
                  (by simpa using hk) hc hred] at h
                cases h
            · cases hc : cellFromKeywords cpc st.keywords box with
              | error e =>
                rw [decodeBody_expand_err pf cpc box _ st e hst (by simpa using hk) hc] at h
                injection h with h2
                rw [cellFromKeywords_error_eq cpc _ _ e hc] at h2
                exact VErr.noConfusion h2
              | ok cell =>
                rw [decodeBody_eval_nored pf cpc box _ st cell hst
                  (by simpa using hk) hc (by simpa using hred)] at h
                cases h
    · rintro ⟨box, st, hbox, hst, hk⟩
      rw [decodeLines_expand' pf cpc lines box hbox]
      exact decodeBody_eval_surface pf cpc box _ st hst hk
  · exact addedKeywords_ne_freeBC

/-- C4 (witness): the amended theorem applied to a well-formed file with
the `surface` keyword. -/
theorem C4_witness : decodeLines pfQ cpc0 fileSurfaceOk = .error .UnsupportedFeature :=
  (C4_amended.1 pfQ cpc0 fileSurfaceOk).mpr
    ⟨[1, 0, 1, 0, 0, 1], ⟨["surface"], [(⟨1, 0, 0⟩, "C")]⟩,
      by
        rw [show splitWS (fileSurfaceOk.getD 1 "" ++ " " ++ fileSurfaceOk.getD 2 "") =
          ["1", "0", "1", "0", "0", "1"] from by decide]
        exact parseAll_boxId,
      scan_surface_ok, by decide⟩

/-! ## Claim C5 -/

/-- C5: the writer emits exactly one periodicity keyword line, chosen by
the periodicity flags — `periodic` for [T,T,T], `freeBC` for [F,F,F],
`surface` for [T,F,T], tested in that order — and for every other
pattern it fails with `UnsupportedBoundaryCondition` after the five
header/keyword lines, having written no atom line. -/
theorem C5_periodicity (fmt : ℚ → String) (canon : Mat3 → Mat3) (r : Record) :
    (r.pbc = (true, true, true) →
      encodeLines fmt canon r =
        (encPre fmt (canon r.cell) ++ ["#keyword: periodic"] ++
          (fracPositions (canon r.cell) r.atoms).map (atomLine fmt), none)) ∧
    (r.pbc = (false, false, false) →
      encodeLines fmt canon r =
        (encPre fmt (canon r.cell) ++ ["#keyword: freeBC"] ++
          (fracPositions (canon r.cell) r.atoms).map (atomLine fmt), none)) ∧
    (r.pbc = (true, false, true) →
      encodeLines fmt canon r =
        (encPre fmt (canon r.cell) ++ ["#keyword: surface"] ++
          (fracPositions (canon r.cell) r.atoms).map (atomLine fmt), none)) ∧
    (r.pbc ≠ (true, true, true) → r.pbc ≠ (false, false, false) →
      r.pbc ≠ (true, false, true) →
      encodeLines fmt canon r = (encPre fmt (canon r.cell), some .UnsupportedBoundaryCondition)) := by
  refine ⟨?_, ?_, ?_, ?_⟩
  · intro h; unfold encodeLines; rw [h]
  · intro h; unfold encodeLines; rw [h]
  · intro h; unfold encodeLines; rw [h]
  · intro hn1 hn2 hn3
    unfold encodeLines
    rcases hp : r.pbc with ⟨b1, b2, b3⟩
    cases b1 <;> cases b2 <;> cases b3 <;>
      first
        | rfl
        | exact absurd hp hn1
        | exact absurd hp hn2
        | exact absurd hp hn3

/-- C5 (witness): the theorem applied at a rejected pattern [T,T,F] and
at the fully periodic pattern. -/
theorem C5_witness :
    encodeLines fmtQ (fun m => m) recBadPbc =
      (encPre fmtQ recBadPbc.cell, some .UnsupportedBoundaryCondition) ∧
    encodeLines fmtQ (fun m => m) recRound =
      (encPre fmtQ recRound.cell ++ ["#keyword: periodic"] ++
        (fracPositions recRound.cell recRound.atoms).map (atomLine fmtQ), none) := by
  constructor
  · exact (C5_periodicity fmtQ (fun m => m) recBadPbc).2.2.2
      (by decide) (by decide) (by decide)
  · exact (C5_periodicity fmtQ (fun m => m) recRound).1 rfl

/-! ## Claim C6 -/

/-- C6: when `angdeg` is absent and the header supplies at least six
numbers, the decoded cell is the lower-triangular matrix filled row-major
with the first six header numbers at positions (0,0), (1,0), (1,1),
(2,0), (2,1), (2,2), zeros elsewhere, scaled by the Bohr radius exactly
when a Bohr-family keyword is present. -/
theorem C6_cell (pf : String → Option ℚ) (cpc : List ℚ → Mat3) (lines : List String)
    (r : Record) (box : List ℚ) (st : ScanState)
    (b0 b1 b2 b3 b4 b5 : ℚ) (rest : List ℚ)
    (hdec : decodeLines pf cpc lines = .ok r)
    (hbox : parseAll pf (splitWS (lines.getD 1 "" ++ " " ++ lines.getD 2 "")) = .ok box)
    (hst : scanBody pf ⟨[], []⟩ (lines.drop 3) = .ok st)
    (hang : st.keywords.contains "angdeg" = false)
    (hb : box = b0 :: b1 :: b2 :: b3 :: b4 :: b5 :: rest) :
    r.cell = msmul (if bohrFamily st.keywords then Bohr else 1)
      ⟨⟨b0, 0, 0⟩, ⟨b1, b2, 0⟩, ⟨b3, b4, b5⟩⟩ := by
  rw [decodeLines_expand' pf cpc lines box hbox] at hdec
  have hcell : cellFromKeywords cpc st.keywords box =
      .ok (msmul (if bohrFamily st.keywords then Bohr else 1)
        ⟨⟨b0, 0, 0⟩, ⟨b1, b2, 0⟩, ⟨b3, b4, b5⟩⟩) := by
    unfold cellFromKeywords
    rw [if_neg (by rw [hang]; decide), hb]
    rfl
  by_cases hk : (st.keywords.contains "surface" || st.keywords.contains "freeBC") = true
  · rw [decodeBody_eval_surface pf cpc box _ st hst hk] at hdec
    cases hdec
  · by_cases hred : st.keywords.contains "reduced" = true
    · rw [decodeBody_eval_red pf cpc box _ st _ hst (by simpa using hk) hcell hred] at hdec
      injection hdec with h2
      rw [← h2]
    · rw [decodeBody_eval_nored pf cpc box _ st _ hst (by simpa using hk) hcell
        (by simpa using hred)] at hdec
      injection hdec with h2
      rw [← h2]

/-- C6 (witness): the theorem applied to a file with a Bohr keyword and
the identity box. -/
theorem C6_witness :
    (⟨msmul Bohr mId, [(⟨Bohr, 0, 0⟩, "C")], (false, false, false)⟩ : Record).cell =
      msmul (if bohrFamily (⟨["bohr"], [(⟨Bohr, 0, 0⟩, "C")]⟩ : ScanState).keywords then Bohr else 1)
        ⟨⟨1, 0, 0⟩, ⟨0, 1, 0⟩, ⟨0, 0, 1⟩⟩ :=
  C6_cell pfQ cpc0 fileKwBefore _ [1, 0, 1, 0, 0, 1] ⟨["bohr"], [(⟨Bohr, 0, 0⟩, "C")]⟩
    1 0 1 0 0 1 [] decode_fileKwBefore
    (by
      rw [show splitWS (fileKwBefore.getD 1 "" ++ " " ++ fileKwBefore.getD 2 "") =
        ["1", "0", "1", "0", "0", "1"] from by decide]
      exact parseAll_boxId)
    scan_bohr_before (by decide) (by decide)

/-! ## Claim C8 -/

/-- C8: decode fails with `MalformedInput` whenever some header token
does not parse as a real, or some non-comment body line with at least
four tokens has an unparsable token among its first three; no record is
returned in either case. -/
theorem C8_malformed (pf : String → Option ℚ) (cpc : List ℚ → Mat3) (lines : List String) :
    ((∃ tok ∈ splitWS (lines.getD 1 "" ++ " " ++ lines.getD 2 ""), pf tok = none) →
      decodeLines pf cpc lines = .error .MalformedInput) ∧
    (∀ (L t0 t1 t2 t3 : String) (ts : List String),
      L ∈ lines.drop 3 → stripComment L.data = none →
      splitWS L = t0 :: t1 :: t2 :: t3 :: ts →
      (pf t0 = none ∨ pf t1 = none ∨ pf t2 = none) →
      decodeLines pf cpc lines = .error .MalformedInput) := by
  constructor
  · rintro ⟨tok, hmem, hn⟩
    unfold decodeLines
    rw [parseAll_mem_none pf _ tok hmem hn]
  · intro L t0 t1 t2 t3 ts hmem hsc hs hbad
    unfold decodeLines
    cases hbox : parseAll pf (splitWS (lines.getD 1 "" ++ " " ++ lines.getD 2 "")) with
    | error e => rw [parseAll_error_eq pf _ e hbox]
    | ok box =>
      unfold decodeBody
      rw [scanBody_node_bad pf L t0 t1 t2 t3 ts hsc hs hbad (lines.drop 3) ⟨[], []⟩ hmem]

/-- C8 (witness): the theorem applied to a file whose header has the
non-numeric token `x`. -/
theorem C8_witness : decodeLines pfQ cpc0 fileBadHeader = .error .MalformedInput :=
  (C8_malformed pfQ cpc0 fileBadHeader).1 ⟨"x", by decide, by decide⟩

/-! ## Claim C9 -/

/-- C9: the two header lines are concatenated before tokenizing, so only
the combined token sequence matters (any split of the six numbers across
the two lines decodes identically), and every header token is converted,
so an unparsable token after the first six still fails the decode. -/
theorem C9_header (pf : String → Option ℚ) (cpc : List ℚ → Mat3)
    (t h1 h2 h1' h2' : String) (body : List String) :
    (splitWS (h1 ++ " " ++ h2) = splitWS h1 ++ splitWS h2) ∧
    (splitWS (h1 ++ " " ++ h2) = splitWS (h1' ++ " " ++ h2') →
      decodeLines pf cpc (t :: h1 :: h2 :: body) =
        decodeLines pf cpc (t :: h1' :: h2' :: body)) ∧
    (∀ (good : List String) (bad : String) (more : List String),
      splitWS (h1 ++ " " ++ h2) = good ++ bad :: more → 6 ≤ good.length →
      pf bad = none →
      decodeLines pf cpc (t :: h1 :: h2 :: body) = .error .MalformedInput) := by
  refine ⟨splitWS_append_space h1 h2, ?_, ?_⟩
  · intro he
    unfold decodeLines
    have hg1 : (t :: h1 :: h2 :: body).getD 1 "" = h1 := rfl
    have hg2 : (t :: h1 :: h2 :: body).getD 2 "" = h2 := rfl
    have hg1' : (t :: h1' :: h2' :: body).getD 1 "" = h1' := rfl
    have hg2' : (t :: h1' :: h2' :: body).getD 2 "" = h2' := rfl
    have hd : (t :: h1 :: h2 :: body).drop 3 = body := rfl
    have hd' : (t :: h1' :: h2' :: body).drop 3 = body := rfl
    rw [hg1, hg2, hg1', hg2', hd, hd', he]
  · intro good bad more hsp hlen hn
    unfold decodeLines
    have hg1 : (t :: h1 :: h2 :: body).getD 1 "" = h1 := rfl
    have hg2 : (t :: h1 :: h2 :: body).getD 2 "" = h2 := rfl
    rw [hg1, hg2]
    rw [parseAll_mem_none pf _ bad (by rw [hsp]; exact List.mem_append_right _ (by simp)) hn]

/-- C9 (witness): the theorem applied to a 1+5 split of the six box
numbers against the canonical 3+3 split. -/
theorem C9_witness : decodeLines pfQ cpc0 fileSplit15 = decodeLines pfQ cpc0 fileSplit33 :=
  (C9_header pfQ cpc0 "sample" "1" "0 1 0 0 1" "1 0 1" "0 0 1" ["1 0 0 C"]).2.1 (by decide)

/-! ## Claim C2 -/

/-- C2 (counterexample): in a file whose Bohr keyword line follows the
node line, the decoded cell is scaled by the Bohr radius while the
decoded position is not — the two length-unit interpretations are mixed
in one record. -/
theorem C2_counterexample :
    decodeLines pfQ cpc0 fileKwAfter =
      .ok ⟨msmul Bohr mId, [(⟨1, 0, 0⟩, "C")], (false, false, false)⟩ ∧
    addedKeywords "#keyword: bohr" = ["bohr"] ∧
    (⟨1, 0, 0⟩ : Vec3) ≠ vsmul Bohr ⟨1, 0, 0⟩ ∧
    msmul Bohr mId ≠ mId := by
  refine ⟨decode_fileKwAfter, by decide, ?_, ?_⟩
  · intro h
    have h2 := congrArg Vec3.x h
    simp only [vsmul] at h2
    norm_num [Bohr] at h2
  · intro h
    have h2 := congrArg (fun m => Vec3.x (Mat3.r0 m)) h
    simp only [msmul, vsmul, mId] at h2
    norm_num [Bohr] at h2

/-- C2 (amended): for a file without `angdeg` whose keyword-contributing
lines all precede its node lines, one unit factor applies uniformly:
the factor is the Bohr radius when a Bohr-family keyword is present and
1 otherwise, the decoded cell is the factor times the raw triangular
box, and (in the non-reduced case) every decoded position is the factor
times the coordinates as written. -/
theorem C2_amended (pf : String → Option ℚ) (cpc : List ℚ → Mat3) (t h1 h2 : String)
    (b1 b2 : List String) (r : Record) (st rst : ScanState) (box : List ℚ) (M : Mat3)
    (hb1 : ∀ l ∈ b1, (splitWS l).length < 4 ∨ stripComment l.data ≠ none)
    (hb2 : ∀ l ∈ b2, addedKeywords l = [])
    (hbox : parseAll pf (splitWS (h1 ++ " " ++ h2)) = .ok box)
    (hM : lowerFill box = .ok M)
    (hst : scanBody pf ⟨[], []⟩ (b1 ++ b2) = .ok st)
    (hrst : rawScanBody pf ⟨[], []⟩ (b1 ++ b2) = .ok rst)
    (hang : st.keywords.contains "angdeg" = false)
    (hdec : decodeLines pf cpc (t :: h1 :: h2 :: (b1 ++ b2)) = .ok r) :
    ∃ u : ℚ,
      ((bohrFamily st.keywords = true ∧ u = Bohr) ∨
        (bohrFamily st.keywords = false ∧ u = 1)) ∧
      r.cell = msmul u M ∧
      (st.keywords.contains "reduced" = false →
        r.atoms = rst.atoms.map (fun a => (vsmul u a.1, a.2))) := by
  have hst0 := hst
  obtain ⟨hs1, hr1⟩ := scanBody_comment_only pf b1 hb1 [] []
  rw [scanBody_append pf b1 b2 ⟨[], []⟩, hs1] at hst
  rw [rawScanBody_append pf b1 b2 ⟨[], []⟩, hr1] at hrst
  obtain ⟨hkst, hkrst, ats, hats, hrats⟩ :=
    scanBody_nokw_rel pf b2 hb2 ([] ++ bodyKeywords b1) [] [] st rst hst hrst
  rw [decodeLines_expand pf cpc t h1 h2 _ box hbox] at hdec
  have hcell : cellFromKeywords cpc st.keywords box =
      .ok (msmul (if bohrFamily st.keywords then Bohr else 1) M) :=
    cellFromKeywords_noang cpc st.keywords box M hang hM
  have hufacts : (bohrFamily st.keywords = true ∧
        (if bohrFamily st.keywords then Bohr else (1 : ℚ)) = Bohr) ∨
      (bohrFamily st.keywords = false ∧
        (if bohrFamily st.keywords then Bohr else (1 : ℚ)) = 1) := by
    by_cases hbf : bohrFamily st.keywords = true
    · exact Or.inl ⟨hbf, if_pos hbf⟩
    · exact Or.inr ⟨by simpa using hbf, if_neg hbf⟩
  by_cases hk : (st.keywords.contains "surface" || st.keywords.contains "freeBC") = true
  · rw [decodeBody_eval_surface pf cpc box _ st hst0 hk] at hdec
    cases hdec
  · by_cases hred : st.keywords.contains "reduced" = true
    · rw [decodeBody_eval_red pf cpc box _ st _ hst0 (by simpa using hk) hcell hred] at hdec
      injection hdec with h3
      refine ⟨if bohrFamily st.keywords then Bohr else 1, hufacts, ?_, ?_⟩
      · rw [← h3]
      · intro hred2
        rw [hred2] at hred
        cases hred
    · rw [decodeBody_eval_nored pf cpc box _ st _ hst0 (by simpa using hk) hcell
        (by simpa using hred)] at hdec
      injection hdec with h3
      refine ⟨if bohrFamily st.keywords then Bohr else 1, hufacts, ?_, ?_⟩
      · rw [← h3]
      · intro _
        rw [← h3]
        show st.atoms = _
        have hred' : st.keywords.contains "reduced" = false := by simpa using hred
        have hlu : lineUnit ([] ++ bodyKeywords b1) =
            (if bohrFamily st.keywords then Bohr else 1) := by
          rw [← hkst]
          unfold lineUnit
          rw [if_neg (by rw [hred']; decide)]
        rw [hats, hrats, hlu]
        simp

/-- C2 (witness): the amended theorem applied to a file whose Bohr
keyword precedes its node line. -/
theorem C2_witness :
    ∃ u : ℚ,
      ((bohrFamily (⟨["bohr"], [(⟨Bohr, 0, 0⟩, "C")]⟩ : ScanState).keywords = true ∧ u = Bohr) ∨
        (bohrFamily (⟨["bohr"], [(⟨Bohr, 0, 0⟩, "C")]⟩ : ScanState).keywords = false ∧ u = 1)) ∧
      (⟨msmul Bohr mId, [(⟨Bohr, 0, 0⟩, "C")], (false, false, false)⟩ : Record).cell =
        msmul u mId ∧
      ((⟨["bohr"], [(⟨Bohr, 0, 0⟩, "C")]⟩ : ScanState).keywords.contains "reduced" = false →
        (⟨msmul Bohr mId, [(⟨Bohr, 0, 0⟩, "C")], (false, false, false)⟩ : Record).atoms =
          (⟨["bohr"], [(⟨1, 0, 0⟩, "C")]⟩ : ScanState).atoms.map
            (fun a => (vsmul u a.1, a.2))) :=
  C2_amended pfQ cpc0 "sample" "1 0 1" "0 0 1" ["#keyword: bohr"] ["1 0 0 C"]
    ⟨msmul Bohr mId, [(⟨Bohr, 0, 0⟩, "C")], (false, false, false)⟩
    ⟨["bohr"], [(⟨Bohr, 0, 0⟩, "C")]⟩ ⟨["bohr"], [(⟨1, 0, 0⟩, "C")]⟩ [1, 0, 1, 0, 0, 1] mId
    (by decide) (by decide)
    (by
      rw [show splitWS ("1 0 1" ++ " " ++ "0 0 1") = ["1", "0", "1", "0", "0", "1"] from by decide]
      exact parseAll_boxId)
    rfl scan_bohr_before rawScan_bohr_before (by decide) decode_fileKwBefore

/-! ## Claim C7 -/

/-- C7: when the keywords collected before a node line include a
Bohr-family keyword and not `reduced`, and the file never declares
`reduced`, the node line's parsed coordinates are each multiplied by the
Bohr radius in the decoded record. -/
theorem C7_bohr (pf : String → Option ℚ) (cpc : List ℚ → Mat3) (t h1 h2 : String)
    (pre : List String) (L : String) (post : List String) (r : Record)
    (stPre stAll : ScanState) (t0 t1 t2 t3 : String) (ts : List String) (c0 c1 c2 : ℚ)
    (hpre : scanBody pf ⟨[], []⟩ pre = .ok stPre)
    (hbohr : bohrFamily stPre.keywords = true)
    (hnored : stPre.keywords.contains "reduced" = false)
    (hsc : stripComment L.data = none)
    (hsp : splitWS L = t0 :: t1 :: t2 :: t3 :: ts)
    (h0 : pf t0 = some c0) (h1q : pf t1 = some c1) (h2q : pf t2 = some c2)
    (hall : scanBody pf ⟨[], []⟩ (pre ++ L :: post) = .ok stAll)
    (hnored2 : stAll.keywords.contains "reduced" = false)
    (hdec : decodeLines pf cpc (t :: h1 :: h2 :: (pre ++ L :: post)) = .ok r) :
    ∃ tail, r.atoms = stPre.atoms ++ (⟨Bohr * c0, Bohr * c1, Bohr * c2⟩, t3) :: tail := by
  have hstep : processBodyLine pf stPre L =
      .ok ⟨stPre.keywords, stPre.atoms ++ [(⟨Bohr * c0, Bohr * c1, Bohr * c2⟩, t3)]⟩ := by
    rw [processBodyLine_node pf stPre L t0 t1 t2 t3 ts c0 c1 c2 hsc hsp h0 h1q h2q]
    rw [show lineUnit stPre.keywords = Bohr from by
      unfold lineUnit
      rw [if_neg (by rw [hnored]; decide), if_pos hbohr]]
  have hall0 := hall
  rw [scanBody_append pf pre (L :: post) ⟨[], []⟩, hpre] at hall
  have hall2 : scanBody pf
      ⟨stPre.keywords, stPre.atoms ++ [(⟨Bohr * c0, Bohr * c1, Bohr * c2⟩, t3)]⟩ post =
      .ok stAll := by
    have h3 : scanBody pf stPre (L :: post) = .ok stAll := hall
    rw [scanBody_cons_ok pf stPre L post _ hstep] at h3
    exact h3
  obtain ⟨-, tl, htl⟩ := scanBody_ok_parts pf post _ stAll hall2
  cases hbox : parseAll pf (splitWS (h1 ++ " " ++ h2)) with
  | error e =>
    rw [decodeLines_header_err pf cpc (t :: h1 :: h2 :: (pre ++ L :: post)) e hbox] at hdec
    cases hdec
  | ok box =>
    rw [decodeLines_expand pf cpc t h1 h2 (pre ++ L :: post) box hbox] at hdec
    by_cases hk : (stAll.keywords.contains "surface" || stAll.keywords.contains "freeBC") = true
    · rw [decodeBody_eval_surface pf cpc box _ stAll hall0 hk] at hdec
      cases hdec
    · cases hc : cellFromKeywords cpc stAll.keywords box with
      | error e =>
        rw [decodeBody_expand_err pf cpc box _ stAll e hall0 (by simpa using hk) hc] at hdec
        cases hdec
      | ok cell =>
        rw [decodeBody_eval_nored pf cpc box _ stAll cell hall0 (by simpa using hk)
          hc hnored2] at hdec
        injection hdec with h4
        refine ⟨tl, ?_⟩
        rw [← h4]
        show stAll.atoms = _
        rw [htl]
        simp

/-- C7 (witness): the theorem applied to the file with `bohr` declared
before the node line `1 0 0 C`. -/
theorem C7_witness :
    ∃ tail, (⟨msmul Bohr mId, [(⟨Bohr, 0, 0⟩, "C")], (false, false, false)⟩ : Record).atoms =
      (⟨["bohr"], []⟩ : ScanState).atoms ++ (⟨Bohr * 1, Bohr * 0, Bohr * 0⟩, "C") :: tail :=
  C7_bohr pfQ cpc0 "sample" "1 0 1" "0 0 1" ["#keyword: bohr"] "1 0 0 C" []
    ⟨msmul Bohr mId, [(⟨Bohr, 0, 0⟩, "C")], (false, false, false)⟩
    ⟨["bohr"], []⟩ ⟨["bohr"], [(⟨Bohr, 0, 0⟩, "C")]⟩ "1" "0" "0" "C" [] 1 0 0
    scan_bohr_only (by decide) (by decide) (by decide) (by decide)
    pfQ_one pfQ_zero pfQ_zero scan_bohr_before (by decide) decode_fileKwBefore

/-! ## Claim C10 -/

/-- C10: the unit factor of a node line is computed from the keywords
collected strictly before it (a later Bohr keyword leaves it unscaled),
while the final-assembly decisions — the `surface`/`freeBC` check, the
`angdeg` branch, the final cell unit and the `reduced` interpretation —
depend only on the membership of the full collected keyword set and the
scanned atoms, not on where in the body the keyword lines appeared. -/
theorem C10_order :
    (∀ (pf : String → Option ℚ) (pre : List String) (L : String) (post : List String)
      (stPre : ScanState) (t0 t1 t2 t3 : String) (ts : List String) (c0 c1 c2 : ℚ),
      scanBody pf ⟨[], []⟩ pre = .ok stPre →
      stripComment L.data = none →
      splitWS L = t0 :: t1 :: t2 :: t3 :: ts →
      pf t0 = some c0 → pf t1 = some c1 → pf t2 = some c2 →
      scanBody pf ⟨[], []⟩ (pre ++ L :: post) =
        scanBody pf ⟨stPre.keywords, stPre.atoms ++
          [(⟨lineUnit stPre.keywords * c0, lineUnit stPre.keywords * c1,
            lineUnit stPre.keywords * c2⟩, t3)]⟩ post) ∧
    (∀ (pf : String → Option ℚ) (cpc : List ℚ → Mat3) (t h1 h2 : String)
      (bodyA bodyB : List String) (stA stB : ScanState),
      scanBody pf ⟨[], []⟩ bodyA = .ok stA →
      scanBody pf ⟨[], []⟩ bodyB = .ok stB →
      stA.atoms = stB.atoms →
      (∀ k : String, stA.keywords.contains k = stB.keywords.contains k) →
      decodeLines pf cpc (t :: h1 :: h2 :: bodyA) =
        decodeLines pf cpc (t :: h1 :: h2 :: bodyB)) := by
  constructor
  · intro pf pre L post stPre t0 t1 t2 t3 ts c0 c1 c2 hpre hsc hsp h0 h1 h2
    rw [scanBody_append pf pre (L :: post) ⟨[], []⟩, hpre]
    show scanBody pf stPre (L :: post) = _
    rw [scanBody_cons_ok pf stPre L post _
      (processBodyLine_node pf stPre L t0 t1 t2 t3 ts c0 c1 c2 hsc hsp h0 h1 h2)]
  · intro pf cpc t h1 h2 bodyA bodyB stA stB hA hB hatoms hkw
    cases hbox : parseAll pf (splitWS (h1 ++ " " ++ h2)) with
    | error e =>
      rw [decodeLines_header_err pf cpc (t :: h1 :: h2 :: bodyA) e hbox,
        decodeLines_header_err pf cpc (t :: h1 :: h2 :: bodyB) e hbox]
    | ok box =>
      rw [decodeLines_expand pf cpc t h1 h2 bodyA box hbox,
        decodeLines_expand pf cpc t h1 h2 bodyB box hbox]
      rw [decodeBody_ok_st pf cpc box bodyA stA hA, decodeBody_ok_st pf cpc box bodyB stB hB]
      have hcell : cellFromKeywords cpc stA.keywords box =
          cellFromKeywords cpc stB.keywords box := by
        unfold cellFromKeywords
        unfold bohrFamily
        rw [hkw "angdeg", hkw "bohr", hkw "bohrd0", hkw "atomic", hkw "atomicd0"]
      rw [hkw "surface", hkw "freeBC", hatoms, hcell, hkw "reduced"]

/-- C10 (witness): part one of the theorem applied with an empty prefix,
the node line `1 0 0 C`, and a Bohr keyword line after it. -/
theorem C10_witness :
    scanBody pfQ ⟨[], []⟩ ([] ++ "1 0 0 C" :: ["#keyword: bohr"]) =
      scanBody pfQ ⟨(⟨[], []⟩ : ScanState).keywords, (⟨[], []⟩ : ScanState).atoms ++
        [(⟨lineUnit (⟨[], []⟩ : ScanState).keywords * 1,
           lineUnit (⟨[], []⟩ : ScanState).keywords * 0,
           lineUnit (⟨[], []⟩ : ScanState).keywords * 0⟩, "C")]⟩ ["#keyword: bohr"] :=
  C10_order.1 pfQ [] "1 0 0 C" ["#keyword: bohr"] ⟨[], []⟩ "1" "0" "0" "C" [] 1 0 0
    rfl (by decide) (by decide) pfQ_one pfQ_zero pfQ_zero

/-! ## Claim C1 -/

/-- C1 (counterexample): the claim includes the `[true, false, true]`
periodicity pattern, but for it the writer emits `#keyword: surface`,
which the reader rejects with `UnsupportedFeature` before building any
record; the round-trip therefore fails for that pattern even on a
one-atom record with the identity cell (here with the concrete codec
`pfQ`/`fmtQ` and the identity canonicalization). -/
theorem C1_counterexample :
    recSurface.pbc = (true, false, true) ∧
    (encodeLines fmtQ (fun m => m) recSurface).2 = none ∧
    decodeLines pfQ cpc0 (encodeLines fmtQ (fun m => m) recSurface).1 =
      .error .UnsupportedFeature := by
  have hsymS : ∀ a ∈ recSurface.atoms, symTok a.2 := by
    intro a ha
    rcases List.mem_cons.mp ha with h | h
    · subst h
      unfold symTok
      exact ⟨by decide, by decide⟩
    · exact absurd h (List.not_mem_nil a)
  refine ⟨rfl, rfl, ?_⟩
  show decodeLines pfQ cpc0 (encPre fmtQ mId ++ ["#keyword: surface"] ++
    (fracPositions mId recSurface.atoms).map (atomLine fmtQ)) = .error .UnsupportedFeature
  exact decode_encode_surface pfQ fmtQ cpc0 mId recSurface.atoms "#keyword: surface" "surface"
    (fun st => processBodyLine_kwsurf pfQ st) (by decide)
    (fun q _ => ⟨pfQ_fmtQ q, fmtQ_numTok q⟩) hsymS

/-- C1 (amended): the round-trip holds for the fully-periodic and
fully-non-periodic patterns but not for `[true, false, true]` (see the
counterexample), and the decoded record carries the reader's fixed
all-false periodicity flags rather than the original ones.  For any
parse/format pair that round-trips every number the writer emits into a
whitespace-free non-comment token, any record with at least one atom,
whitespace-free nonempty species labels, and a canonicalized cell that is
lower-triangular with nonzero determinant, the writer succeeds and the
reader reproduces the canonicalized cell and the atoms — species and
absolute positions exactly — in their original order. -/
theorem C1_amended (pf : String → Option ℚ) (fmt : ℚ → String) (cpc : List ℚ → Mat3)
    (canon : Mat3 → Mat3) (r : Record)
    (hpbc : r.pbc = (true, true, true) ∨ r.pbc = (false, false, false))
    (hats : r.atoms ≠ [])
    (hnum : ∀ q ∈ encodedRats canon r, pf (fmt q) = some q ∧ numTok (fmt q))
    (hsym : ∀ a ∈ r.atoms, symTok a.2)
    (htri : (canon r.cell).r0.y = 0 ∧ (canon r.cell).r0.z = 0 ∧ (canon r.cell).r1.z = 0)
    (hdet : det3 (canon r.cell) ≠ 0) :
    (encodeLines fmt canon r).2 = none ∧
    decodeLines pf cpc (encodeLines fmt canon r).1 =
      .ok ⟨canon r.cell, r.atoms, (false, false, false)⟩ := by
  obtain ⟨cell, atoms, pbc⟩ := r
  rcases hpbc with hp | hp <;> subst hp
  · refine ⟨rfl, ?_⟩
    show decodeLines pf cpc (encPre fmt (canon cell) ++ ["#keyword: periodic"] ++
      (fracPositions (canon cell) atoms).map (atomLine fmt)) = _
    exact decode_encode_core pf fmt cpc (canon cell) atoms "#keyword: periodic" "periodic"
      (fun st => processBodyLine_kwper pf st) (by decide) (by decide) (by decide)
      (fun q hq => hnum q hq) hsym htri hdet
  · refine ⟨rfl, ?_⟩
    show decodeLines pf cpc (encPre fmt (canon cell) ++ ["#keyword: freeBC"] ++
      (fracPositions (canon cell) atoms).map (atomLine fmt)) = _
    exact decode_encode_core pf fmt cpc (canon cell) atoms "#keyword: freeBC" "freebc"
      (fun st => processBodyLine_kwfree pf st) (by decide) (by decide) (by decide)
      (fun q hq => hnum q hq) hsym htri hdet

/-- C1 (witness): the amended theorem applied to a concrete fully
periodic two-atom record with the concrete codec `pfQ`/`fmtQ`, the
identity canonicalization (the record's cell is already lower-triangular)
and the concrete collaborator instance `cpc0`. -/
theorem C1_witness :
    recRound.pbc = (true, true, true) ∧ recRound.atoms ≠ [] ∧
    det3 recRound.cell ≠ 0 ∧
    (encodeLines fmtQ (fun m => m) recRound).2 = none ∧
    decodeLines pfQ cpc0 (encodeLines fmtQ (fun m => m) recRound).1 =
      .ok ⟨recRound.cell, recRound.atoms, (false, false, false)⟩ := by
  have hdet : det3 recRound.cell ≠ 0 := by
    show det3 ⟨⟨2, 0, 0⟩, ⟨1, 3, 0⟩, ⟨0, 1, 4⟩⟩ ≠ 0
    norm_num [det3]
  have hsymR : ∀ a ∈ recRound.atoms, symTok a.2 := by
    intro a ha
    rcases List.mem_cons.mp ha with h | h2
    · subst h
      unfold symTok
      exact ⟨by decide, by decide⟩
    · rcases List.mem_cons.mp h2 with h | h3
      · subst h
        unfold symTok
        exact ⟨by decide, by decide⟩
      · exact absurd h3 (List.not_mem_nil a)
  refine ⟨rfl, List.cons_ne_nil _ _, hdet, ?_⟩
  exact C1_amended pfQ fmtQ cpc0 (fun m => m) recRound (Or.inl rfl) (List.cons_ne_nil _ _)
    (fun q _ => ⟨pfQ_fmtQ q, fmtQ_numTok q⟩) hsymR ⟨rfl, rfl, rfl⟩ hdet

end VSim
